import Mathlib

set_option maxHeartbeats 1000000

/-!
Verification of the asset-library engine embedded in `tpDcc-libs-qt`
(`tpQtLib/core/library.py`, `tpQtLib/widgets/library/manager.py`,
`tpQtLib/widgets/library/utils.py`).

The Python code is shallowly embedded: Python dictionaries become
association lists, Python scalar values become the `PyValue` type,
fallible Python code returns `Except`, and the imperative loops are
translated into structural recursions carrying their mutable state
explicitly.
-/

/-- Python scalar values as they occur in item field maps and query values.
The engine only ever stores `None`, booleans, integers and strings in the
field maps it matches and sorts, so the embedding restricts Python values
to these scalar cases. -/
inductive PyValue where
  | pnone
  | pbool (b : Bool)
  | pint (n : Int)
  | pstr (s : String)
  deriving Repr, DecidableEq

/-- Python truthiness (`bool(v)`) for the embedded scalar values. -/
def pyTruthy : PyValue → Bool
  | .pnone => false
  | .pbool b => b
  | .pint n => decide (n ≠ 0)
  | .pstr s => decide (s ≠ "")

/-- `s.lower()`: lowercase each character (ASCII, as `Char.toLower`). -/
def strLower (s : String) : String :=
  ⟨s.data.map Char.toLower⟩

/-- `value.lower()` applied by `Library.match` to string values only
(`if isinstance(value, (unicode, str)): value = value.lower()`). -/
def lowerVal : PyValue → PyValue
  | .pstr s => .pstr (strLower s)
  | v => v

/-- A Python dict of item fields (`item.item_data()`), with insertion order. -/
def PyDict := List (String × PyValue)

/-- `data.get(key)`: `None` when the key is missing. -/
def pyGet (data : PyDict) (key : String) : PyValue :=
  match data.lookup key with
  | some v => v
  | none => .pnone

/-- Python 2 `repr`/`str` of an embedded scalar value. -/
def pyReprVal : PyValue → String
  | .pnone => "None"
  | .pbool b => if b then "True" else "False"
  | .pint n => toString n
  | .pstr s => "\x27" ++ s ++ "\x27"

/-- Python 2 `str(data)` for a dict with string keys, used by
`Library.match` when a filter key is `"*"`. -/
def pyReprDict (data : PyDict) : String :=
  "\x7b" ++ String.intercalate ", "
    (data.map (fun kv => pyReprVal (.pstr kv.1) ++ ": " ++ pyReprVal kv.2)) ++ "\x7d"

/-- Substring test on character lists (Python `needle in hay` for strings). -/
def subChars (needle : List Char) : List Char → Bool
  | [] => needle.isEmpty
  | c :: rest => needle.isPrefixOf (c :: rest) || subChars needle rest

/-- Python `needle in hay` for strings. -/
def pySubstr (needle hay : String) : Bool :=
  subChars needle.data hay.data

/-- Python `a == b` across the embedded scalar types: `True == 1` holds,
values of unrelated types compare unequal without raising. -/
def pyEqB : PyValue → PyValue → Bool
  | .pnone, .pnone => true
  | .pbool a, .pbool b => a == b
  | .pbool a, .pint n => (if a then (1 : Int) else 0) == n
  | .pint n, .pbool a => n == (if a then (1 : Int) else 0)
  | .pint m, .pint n => m == n
  | .pstr s, .pstr t => s == t
  | _, _ => false

/-- One query filter triple `(field, condition, value)`. -/
structure QFilter where
  key : String
  cond : String
  value : PyValue
  deriving Repr, DecidableEq

/-- One query dict: `operator` is `query.get('operator', 'and')` (absent
modelled as `none`), `filters` is `query.get('filters')` (`None` and `[]`
both behave as the empty list). -/
structure Query where
  operator : Option String
  filters : List QFilter
  deriving Repr, DecidableEq

/-- The item value looked up for a filter key by `Library.match`:
`str(data)` for the wildcard key, `data.get(key)` otherwise. -/
def matchItemValue (data : PyDict) (key : String) : PyValue :=
  if key = "*" then .pstr (pyReprDict data) else pyGet data key

/-- The assignment to `match` made by one iteration of the filter loop in
`Library.match`, given the previous value `m` of `match`: a falsy item
value forces `False`; otherwise the condition is applied; an unrecognized
condition name leaves `match` unchanged (the `elif` chain has no `else`).
Python raises `TypeError`/`AttributeError` (modelled as `.error ()`) when
`in`/`startswith` meet a non-string operand. -/
def matchStep (data : PyDict) (m : Bool) (f : QFilter) : Except Unit Bool :=
  let value := lowerVal f.value
  let itemValue := lowerVal (matchItemValue data f.key)
  if ¬ pyTruthy itemValue then .ok false
  else if f.cond = "contains" then
    match itemValue, value with
    | .pstr hay, .pstr needle => .ok (pySubstr needle hay)
    | _, _ => .error ()
  else if f.cond = "not_contains" then
    match itemValue, value with
    | .pstr hay, .pstr needle => .ok (¬ pySubstr needle hay)
    | _, _ => .error ()
  else if f.cond = "is" then .ok (pyEqB value itemValue)
  else if f.cond = "not" then .ok (¬ pyEqB value itemValue)
  else if f.cond = "startswith" then
    match itemValue, value with
    | .pstr hay, .pstr needle => .ok (needle.data.isPrefixOf hay.data)
    | _, _ => .error ()
  else .ok m

/-- The filter loop of `Library.match` for one query, carrying the mutable
`match` variable `m` (initialized to `False` by the source): after each
triple, `or` breaks on a true result and `and` breaks on a false one. -/
def runFiltersLoop (data : PyDict) (operator : String) (m : Bool) :
    List QFilter → Except Unit Bool
  | [] => .ok m
  | f :: rest => do
    let m1 ← matchStep data m f
    if operator = "or" ∧ m1 then .ok m1
    else if operator = "and" ∧ ¬ m1 then .ok m1
    else runFiltersLoop data operator m1 rest

/-- `Library.match(data, queries)` (`tpQtLib/core/library.py`): queries with
empty (or missing) `filters` are skipped; each remaining query contributes
one entry to `matches`; the overall result is `all(matches)`. -/
def Library_match (data : PyDict) : List Query → Except Unit Bool
  | [] => .ok true
  | q :: rest =>
    if q.filters.isEmpty then Library_match data rest
    else do
      let m ← runFiltersLoop data (q.operator.getD "and") false q.filters
      let r ← Library_match data rest
      .ok (m && r)

/-- Modelled from the spec: per-query `or` semantics, "short-circuit true on
the first true condition in the triple list". -/
def spec_anyTriples (data : PyDict) : List QFilter → Except Unit Bool
  | [] => .ok false
  | f :: rest => do
    let b ← matchStep data false f
    if b then .ok true else spec_anyTriples data rest

/-- Modelled from the spec: per-query `and` semantics, "short-circuit false
on the first false" condition. -/
def spec_allTriples (data : PyDict) : List QFilter → Except Unit Bool
  | [] => .ok true
  | f :: rest => do
    let b ← matchStep data false f
    if b then spec_allTriples data rest else .ok false

/-- Modelled from the spec: "the overall result is the logical AND across
all queries evaluated (a single false query fails the whole match)", where
queries with empty filters are skipped and each query combines its own
filters per its own operator. -/
def spec_match (data : PyDict) : List Query → Except Unit Bool
  | [] => .ok true
  | q :: rest =>
    if q.filters.isEmpty then spec_match data rest
    else do
      let b ← (if q.operator.getD "and" = "or" then spec_anyTriples data q.filters
               else spec_allTriples data q.filters)
      let r ← spec_match data rest
      .ok (b && r)

/-- The five condition names implemented by `Library.match`. -/
def validCond (c : String) : Bool :=
  c = "contains" || c = "not_contains" || c = "is" || c = "not" || c = "startswith"

/-- A query whose operator is `and`/`or` (or absent, defaulting to `and`)
and whose conditions are all recognized. -/
def validQuery (q : Query) : Bool :=
  (q.operator.getD "and" = "and" || q.operator.getD "and" = "or") &&
    q.filters.all (fun f => validCond f.cond)

/-! ## Ordering of Python 2 values, as used by `sorted` in `Library.sorted`

Python 2 compares mixed types: `None` is smaller than everything, numbers
(including `bool`, which is numeric) are smaller than strings, strings
compare lexicographically. -/

/-- Numeric value of a Python number (`bool` is numeric in Python 2). -/
def pyNum : PyValue → Int
  | .pbool b => if b then 1 else 0
  | .pint n => n
  | _ => 0

/-- Lexicographic `<` on character lists (Python 2 string comparison). -/
def charsLt : List Char → List Char → Bool
  | [], [] => false
  | [], _ :: _ => true
  | _ :: _, [] => false
  | a :: as, b :: bs =>
    if a < b then true else if b < a then false else charsLt as bs

/-- Python 2 `a < b` on the embedded scalar values. -/
def pyLtB : PyValue → PyValue → Bool
  | .pnone, .pnone => false
  | .pnone, _ => true
  | _, .pnone => false
  | .pstr s, .pstr t => charsLt s.data t.data
  | _, .pstr _ => true
  | .pstr _, _ => false
  | a, b => decide (pyNum a < pyNum b)

theorem charsLt_asymm : ∀ s t, charsLt s t = true → charsLt t s = false := by
  intro s
  induction s with
  | nil => intro t _; cases t <;> simp [charsLt]
  | cons a as ih =>
    intro t h
    cases t with
    | nil => simp [charsLt] at h
    | cons b bs =>
      simp only [charsLt] at h ⊢
      by_cases hab : a < b
      · simp [hab, lt_asymm hab]
      · by_cases hba : b < a
        · simp [hab, hba] at h
        · simp [hab, hba] at h ⊢
          exact ih bs h

theorem charsLt_cotrans :
    ∀ s u t, charsLt s u = true → charsLt s t = true ∨ charsLt t u = true := by
  intro s
  induction s with
  | nil =>
    intro u t h
    cases u with
    | nil => simp [charsLt] at h
    | cons c cs =>
      cases t with
      | nil => right; simp [charsLt]
      | cons b bs => left; simp [charsLt]
  | cons a as ih =>
    intro u t h
    cases u with
    | nil => simp [charsLt] at h
    | cons c cs =>
      cases t with
      | nil => right; simp [charsLt]
      | cons b bs =>
        simp only [charsLt] at h ⊢
        by_cases hac : a < c
        · by_cases hab : a < b
          · left; simp [hab]
          · by_cases hba : b < a
            · right; simp [lt_trans hba hac]
            · have hbc : b < c := (le_antisymm (not_lt.mp hba) (not_lt.mp hab)) ▸ hac
              right; simp [hbc]
        · by_cases hca : c < a
          · simp [hac, hca] at h
          · simp [hac, hca] at h
            have hceq : a = c := le_antisymm (not_lt.mp hca) (not_lt.mp hac)
            by_cases hab : a < b
            · left; simp [hab]
            · by_cases hba : b < a
              · right; simp [hceq ▸ hba]
              · have h1 : ¬ b < c := hceq ▸ hba
                have h2 : ¬ c < b := hceq ▸ hab
                rcases ih cs bs h with h3 | h3
                · left; simp [hab, hba, h3]
                · right; simp [h1, h2, h3]

theorem pyLtB_asymm : ∀ a b, pyLtB a b = true → pyLtB b a = false := by
  intro a b h
  rcases a with _ | ba | na | sa <;> try cases ba
  all_goals (rcases b with _ | bb | nb | sb <;> try cases bb)
  all_goals simp_all [pyLtB, pyNum]
  all_goals first
    | omega
    | exact charsLt_asymm _ _ h

theorem pyLtB_cotrans :
    ∀ a c b, pyLtB a c = true → pyLtB a b = true ∨ pyLtB b c = true := by
  intro a c b h
  rcases a with _ | ba | na | sa <;> try cases ba
  all_goals (rcases c with _ | bc | nc | sc <;> try cases bc)
  all_goals (rcases b with _ | bb | nb | sb <;> try cases bb)
  all_goals simp_all [pyLtB, pyNum]
  all_goals first
    | omega
    | exact charsLt_cotrans _ _ _ h

/-! ## `Library.sorted` (`tpQtLib/core/library.py`)

Python's `sorted` is a stable sort; any two stable sorts over the same
total preorder produce the same output, so it is embedded as Mathlib's
stable `List.insertionSort`.  `sorted(..., reverse=True)` is the stable
descending sort, i.e. the stable sort for the reversed (non-strict)
comparison. -/

/-- `str.split(':')` on character lists (Python `field.split(':')`). -/
def splitColon : List Char → List (List Char)
  | [] => [[]]
  | c :: rest =>
    if c = ':' then [] :: splitColon rest
    else
      match splitColon rest with
      | [] => [[c]]
      | g :: gs => (c :: g) :: gs

/-- Token parsing in `Library.sorted`: `tokens = field.split(':')`; with
more than one token the field is `tokens[0]` and `reverse` is
`tokens[1] != 'asc'`; otherwise the field is the whole token and
`reverse` is `False`. -/
def parseSortToken (tok : String) : String × Bool :=
  match splitColon tok.data with
  | [] => (tok, false)
  | [_] => (tok, false)
  | f :: r :: _ => (String.mk f, decide (String.mk r ≠ "asc"))

/-- The sort key of `Library.sorted`:
`default = False if reverse else ''; item.item_data().get(field, default)`. -/
def sortKeyVal (field : String) (reverse : Bool) (it : PyDict) : PyValue :=
  match it.lookup field with
  | some v => v
  | none => if reverse then .pbool false else .pstr ""

/-- The non-strict key comparison used for one `sorted` pass: ascending
compares `key x ≤ key y`, descending (`reverse=True`) compares
`key x ≥ key y`; ties keep the input order (stability). -/
def sortRel (field : String) (reverse : Bool) (x y : PyDict) : Prop :=
  match reverse with
  | true => pyLtB (sortKeyVal field reverse x) (sortKeyVal field reverse y) = false
  | false => pyLtB (sortKeyVal field reverse y) (sortKeyVal field reverse x) = false

instance (field : String) (reverse : Bool) : DecidableRel (sortRel field reverse) := by
  intro x y
  unfold sortRel
  cases reverse <;> exact inferInstance

theorem pyLtB_total_not (a b : PyValue) : pyLtB a b = false ∨ pyLtB b a = false := by
  rcases h : pyLtB a b
  · left; rfl
  · right; exact pyLtB_asymm _ _ h

instance (field : String) (reverse : Bool) : IsTotal PyDict (sortRel field reverse) := by
  constructor
  intro x y
  unfold sortRel
  cases reverse
  · exact (pyLtB_total_not _ _).symm
  · exact pyLtB_total_not _ _

instance (field : String) (reverse : Bool) : IsTrans PyDict (sortRel field reverse) := by
  constructor
  intro x y z hxy hyz
  unfold sortRel at hxy hyz ⊢
  cases reverse
  · by_contra hzx
    simp only [Bool.not_eq_false] at hzx
    rcases pyLtB_cotrans _ _ (sortKeyVal field false y) hzx with h | h <;> simp_all
  · by_contra hzx
    simp only [Bool.not_eq_false] at hzx
    rcases pyLtB_cotrans _ _ (sortKeyVal field true y) hzx with h | h <;> simp_all

/-- One `items = sorted(items, key=sort_key, reverse=reverse)` pass of
`Library.sorted`. -/
def pySortedBy (field : String) (reverse : Bool) (items : List PyDict) : List PyDict :=
  List.insertionSort (sortRel field reverse) items

/-- One iteration of the `for field in reversed(sort_by)` loop in
`Library.sorted`: parse the token, then run one stable sort pass. -/
def sortPass (items : List PyDict) (tok : String) : List PyDict :=
  let p := parseSortToken tok
  pySortedBy p.1 p.2 items

/-- `Library.sorted(items, sort_by)` (`tpQtLib/core/library.py`):
process the sort tokens in reverse order, one stable sort pass each. -/
def Library_sorted (items : List PyDict) (sort_by : List String) : List PyDict :=
  sort_by.reverse.foldl sortPass items

/-! ## Equivalence of the `Library.match` filter loop with the spec's
per-operator semantics -/

theorem matchStep_indep (data : PyDict) (m m' : Bool) (f : QFilter)
    (h : validCond f.cond = true) : matchStep data m f = matchStep data m' f := by
  obtain ⟨k, c, v⟩ := f
  simp only [validCond, Bool.or_eq_true, decide_eq_true_eq] at h
  rcases h with ((((h | h) | h) | h) | h) <;> subst h <;> rfl

theorem orLoop_eq_anyTriples (data : PyDict) :
    ∀ (rest : List QFilter) (f : QFilter) (m : Bool),
    validCond f.cond = true → rest.all (fun g => validCond g.cond) = true →
    runFiltersLoop data "or" m (f :: rest) = spec_anyTriples data (f :: rest) := by
  intro rest
  induction rest with
  | nil =>
    intro f m hf _
    show (do
      let m1 ← matchStep data m f
      if ("or" : String) = "or" ∧ m1 then .ok m1
      else if ("or" : String) = "and" ∧ ¬ m1 then .ok m1
      else runFiltersLoop data "or" m1 []) = spec_anyTriples data [f]
    rw [matchStep_indep data m false f hf]
    cases hms : matchStep data false f with
    | error e => simp only [spec_anyTriples, hms]; rfl
    | ok b => cases b <;> simp only [spec_anyTriples, hms] <;> rfl
  | cons g gs ih =>
    intro f m hf hrest
    simp only [List.all_cons, Bool.and_eq_true] at hrest
    show (do
      let m1 ← matchStep data m f
      if ("or" : String) = "or" ∧ m1 then .ok m1
      else if ("or" : String) = "and" ∧ ¬ m1 then .ok m1
      else runFiltersLoop data "or" m1 (g :: gs)) = spec_anyTriples data (f :: g :: gs)
    rw [matchStep_indep data m false f hf]
    cases hms : matchStep data false f with
    | error e => simp only [spec_anyTriples, hms]; rfl
    | ok b =>
      cases b
      · simp only [spec_anyTriples, hms]
        exact ih g false hrest.1 hrest.2
      · simp only [spec_anyTriples, hms]; rfl

theorem andLoop_eq_allTriples (data : PyDict) :
    ∀ (rest : List QFilter) (f : QFilter) (m : Bool),
    validCond f.cond = true → rest.all (fun g => validCond g.cond) = true →
    runFiltersLoop data "and" m (f :: rest) = spec_allTriples data (f :: rest) := by
  intro rest
  induction rest with
  | nil =>
    intro f m hf _
    show (do
      let m1 ← matchStep data m f
      if ("and" : String) = "or" ∧ m1 then .ok m1
      else if ("and" : String) = "and" ∧ ¬ m1 then .ok m1
      else runFiltersLoop data "and" m1 []) = spec_allTriples data [f]
    rw [matchStep_indep data m false f hf]
    cases hms : matchStep data false f with
    | error e => simp only [spec_allTriples, hms]; rfl
    | ok b => cases b <;> simp only [spec_allTriples, hms] <;> rfl
  | cons g gs ih =>
    intro f m hf hrest
    simp only [List.all_cons, Bool.and_eq_true] at hrest
    show (do
      let m1 ← matchStep data m f
      if ("and" : String) = "or" ∧ m1 then .ok m1
      else if ("and" : String) = "and" ∧ ¬ m1 then .ok m1
      else runFiltersLoop data "and" m1 (g :: gs)) = spec_allTriples data (f :: g :: gs)
    rw [matchStep_indep data m false f hf]
    cases hms : matchStep data false f with
    | error e => simp only [spec_allTriples, hms]; rfl
    | ok b =>
      cases b
      · simp only [spec_allTriples, hms]; rfl
      · simp only [spec_allTriples, hms]
        exact ih g true hrest.1 hrest.2

theorem Library_match_eq_spec_match (data : PyDict) :
    ∀ (queries : List Query), (∀ q ∈ queries, validQuery q = true) →
    Library_match data queries = spec_match data queries := by
  intro queries
  induction queries with
  | nil => intro _; rfl
  | cons q rest ih =>
    intro hv
    have hq := hv q (List.mem_cons_self q rest)
    have hrest : ∀ p ∈ rest, validQuery p = true :=
      fun p hp => hv p (List.mem_cons_of_mem q hp)
    simp only [validQuery, Bool.and_eq_true, Bool.or_eq_true, decide_eq_true_eq] at hq
    simp only [Library_match, spec_match]
    by_cases he : q.filters.isEmpty
    · rw [if_pos he, if_pos he]
      exact ih hrest
    · rw [if_neg he, if_neg he]
      rcases hfs : q.filters with _ | ⟨f, fs⟩
      · rw [hfs] at he; simp at he
      · have hall : q.filters.all (fun g => validCond g.cond) = true := hq.2
        rw [hfs] at hall
        simp only [List.all_cons, Bool.and_eq_true] at hall
        rcases hq.1 with hop | hop <;> rw [hop]
        · rw [if_neg (by decide : ¬ ("and" : String) = "or")]
          rw [andLoop_eq_allTriples data fs f false hall.1 hall.2, ih hrest]
        · rw [if_pos rfl]
          rw [orLoop_eq_anyTriples data fs f false hall.1 hall.2, ih hrest]

/-! ## `Library.find_items` (`tpQtLib/core/library.py`)

An item is represented by its `item_data()` fields map; `find_items`
appends the global queries to the given ones, keeps the items whose data
matches, and sorts when a sort spec is configured. -/

/-- The filtering loop of `Library.find_items`: keep items whose
`item_data()` matches the queries (an exception from `match` propagates). -/
def matchFilterItems (qs : List Query) : List PyDict → Except Unit (List PyDict)
  | [] => .ok []
  | it :: rest => do
    let m ← Library_match it qs
    let r ← matchFilterItems qs rest
    .ok (if m then it :: r else r)

/-- `Library.find_items(queries)`: `queries.extend(global_queries.values())`,
filter the materialized items by `match`, then sort when `sort_by()` is
non-empty. -/
def Library_find_items (items : List PyDict) (queries globalQueries : List Query)
    (sort_by : List String) : Except Unit (List PyDict) := do
  let results ← matchFilterItems (queries ++ globalQueries) items
  .ok (if sort_by.isEmpty then results else Library_sorted results sort_by)

/-- The concrete fields map of the spec scenario. -/
def chairFields : PyDict := [("type", .pstr "mesh"), ("name", .pstr "Chair_01")]

/-- The concrete `and` query of the spec scenario. -/
def chairAndQuery : Query :=
  Query.mk (some "and")
    [QFilter.mk "type" "is" (.pstr "mesh"), QFilter.mk "name" "startswith" (.pstr "chair")]

theorem Library_sorted_perm (sort_by : List String) (items : List PyDict) :
    (Library_sorted items sort_by).Perm items := by
  unfold Library_sorted
  generalize sort_by.reverse = l
  induction l generalizing items with
  | nil => exact List.Perm.refl items
  | cons t ts ih =>
    exact (ih (sortPass items t)).trans (List.perm_insertionSort _ items)

theorem matchFilterItems_nil_queries :
    ∀ items : List PyDict, matchFilterItems [] items = .ok items := by
  intro items
  induction items with
  | nil => rfl
  | cons it rest ih => simp only [matchFilterItems, Library_match, ih]; rfl

/-- **C4.** `Library.match` is the conjunction over the queries with
non-empty filters, each query combining its triples per its own operator
with the spec's short-circuit semantics; a falsy looked-up value makes a
triple false regardless of condition; string comparison of the query value
is case-insensitive; and the spec's concrete chair scenario matches. -/
theorem C4_match_semantics :
    (∀ (data : PyDict) (queries : List Query),
        (∀ q ∈ queries, validQuery q = true) →
        Library_match data queries = spec_match data queries)
  ∧ (∀ (data : PyDict) (f : QFilter) (m : Bool),
        pyTruthy (lowerVal (matchItemValue data f.key)) = false →
        matchStep data m f = .ok false)
  ∧ (∀ (data : PyDict) (m : Bool) (k c : String) (v w : PyValue),
        lowerVal v = lowerVal w →
        matchStep data m (QFilter.mk k c v) = matchStep data m (QFilter.mk k c w))
  ∧ Library_match chairFields [chairAndQuery] = .ok true := by
  refine ⟨Library_match_eq_spec_match, ?_, ?_, by rfl⟩
  · intro data f m h
    simp [matchStep, h]
  · intro data m k c v w h
    simp only [matchStep, h]

/-- Witness for C4 at the spec's concrete scenario. -/
theorem C4_match_semantics_witness :
    Library_match chairFields [chairAndQuery] = spec_match chairFields [chairAndQuery] :=
  C4_match_semantics.1 chairFields [chairAndQuery] (by decide)

/-- **C10.** `Library.match` is vacuously true when every query has empty
filters (in particular for no queries at all), and `find_items` with no
user queries and no global queries returns every materialized item (up to
the configured sort's reordering). -/
theorem C10_empty_queries_match_all :
    (∀ (data : PyDict) (queries : List Query),
        (∀ q ∈ queries, q.filters = []) →
        Library_match data queries = .ok true)
  ∧ (∀ (items : List PyDict) (sort_by : List String),
        ∃ rs, Library_find_items items [] [] sort_by = .ok rs ∧ rs.Perm items) := by
  constructor
  · intro data queries h
    induction queries with
    | nil => rfl
    | cons q rest ih =>
      have hq : q.filters = [] := h q (List.mem_cons_self q rest)
      have : Library_match data (q :: rest) = Library_match data rest := by
        simp [Library_match, hq]
      rw [this]
      exact ih (fun p hp => h p (List.mem_cons_of_mem q hp))
  · intro items sort_by
    refine ⟨if sort_by.isEmpty then items else Library_sorted items sort_by, ?_, ?_⟩
    · simp only [Library_find_items, List.nil_append, matchFilterItems_nil_queries]
      rfl
    · by_cases hs : sort_by.isEmpty
      · simp [hs]
      · simp only [hs, if_false]
        exact Library_sorted_perm sort_by items

/-- Witness for C10: no queries at all match everything, and `find_items`
with no queries on two concrete items returns both. -/
theorem C10_empty_queries_match_all_witness :
    Library_match chairFields [Query.mk (some "or") []] = .ok true ∧
    ∃ rs, Library_find_items [chairFields, []] [] [] [] = .ok rs ∧
      rs.Perm [chairFields, []] :=
  ⟨C10_empty_queries_match_all.1 chairFields [Query.mk (some "or") []]
      (by intro q hq; simp at hq; simp [hq]),
    C10_empty_queries_match_all.2 [chairFields, []] []⟩

/-! ## C7: `Library.sorted` claims -/

theorem splitColon_no_colon :
    ∀ l : List Char, (∀ c ∈ l, c ≠ ':') → splitColon l = [l] := by
  intro l
  induction l with
  | nil => intro _; rfl
  | cons c rest ih =>
    intro h
    have hc : c ≠ ':' := h c (List.mem_cons_self c rest)
    have hr := ih (fun d hd => h d (List.mem_cons_of_mem c hd))
    simp [splitColon, hc, hr]

theorem splitColon_append :
    ∀ f s : List Char, (∀ c ∈ f, c ≠ ':') →
    splitColon (f ++ ':' :: s) = f :: splitColon s := by
  intro f s
  induction f with
  | nil => intro _; simp [splitColon]
  | cons c rest ih =>
    intro h
    have hc : c ≠ ':' := h c (List.mem_cons_self c rest)
    have hr := ih (fun d hd => h d (List.mem_cons_of_mem c hd))
    rcases hsp : splitColon (rest ++ ':' :: s) with _ | ⟨g, gs⟩
    · rw [hr] at hsp; cases hsp
    · rw [hr] at hsp
      cases hsp
      simp [splitColon, hc, hr]

theorem splitColon_ne_nil : ∀ l : List Char, splitColon l ≠ [] := by
  intro l
  cases l with
  | nil => simp [splitColon]
  | cons c rest =>
    simp only [splitColon]
    by_cases hc : c = ':'
    · simp [hc]
    · simp only [hc, if_false]
      rcases h : splitColon rest with _ | ⟨g, gs⟩ <;> simp

theorem parseSortToken_append (f s : String)
    (hf : ∀ c ∈ f.data, c ≠ ':') (hs : ∀ c ∈ s.data, c ≠ ':') :
    parseSortToken (f ++ ":" ++ s) = (f, decide (s ≠ "asc")) := by
  have hdata : (f ++ ":" ++ s).data = f.data ++ ':' :: s.data := by
    simp [String.data_append]
  unfold parseSortToken
  rw [hdata, splitColon_append f.data s.data hf, splitColon_no_colon s.data hs]

theorem Library_sorted_cons (items : List PyDict) (t : String) (rest : List String) :
    Library_sorted items (t :: rest) = sortPass (Library_sorted items rest) t := by
  unfold Library_sorted
  rw [List.reverse_cons, List.foldl_append]
  rfl

theorem charsLt_nil_cons (s : String) (h : s ≠ "") : charsLt [] s.data = true := by
  rcases s with ⟨d⟩
  cases d with
  | nil => simp at h
  | cons c cs => rfl

/-- **C7 (amended).** `Library.sorted` processes tokens in reverse order so
the first-declared field is dominant (applied last); a `:suffix` other
than `:asc` means descending; a missing field is keyed `""` ascending and
`False` descending; consequently, with string-valued fields, items missing
the field sort to the TOP ascending and to the bottom descending. -/
theorem C7_sorted_amended :
    (∀ (items : List PyDict) (t : String) (rest : List String),
        Library_sorted items (t :: rest) = sortPass (Library_sorted items rest) t)
  ∧ (∀ (f s : String), (∀ c ∈ f.data, c ≠ ':') → (∀ c ∈ s.data, c ≠ ':') →
        parseSortToken (f ++ ":" ++ s) = (f, decide (s ≠ "asc")))
  ∧ (∀ (f : String), (∀ c ∈ f.data, c ≠ ':') → parseSortToken f = (f, false))
  ∧ (∀ (field : String) (it : PyDict), it.lookup field = none →
        sortKeyVal field false it = .pstr "" ∧ sortKeyVal field true it = .pbool false)
  ∧ (∀ (field : String) (items : List PyDict),
        (pySortedBy field false items).Pairwise (fun x y =>
          ∀ s : String, x.lookup field = some (.pstr s) → s ≠ "" →
            y.lookup field ≠ none))
  ∧ (∀ (field : String) (items : List PyDict),
        (pySortedBy field true items).Pairwise (fun x y =>
          x.lookup field = none → ∀ s : String, y.lookup field ≠ some (.pstr s))) := by
  refine ⟨Library_sorted_cons, parseSortToken_append, ?_, ?_, ?_, ?_⟩
  · intro f hf
    unfold parseSortToken
    rw [splitColon_no_colon f.data hf]
  · intro field it h
    constructor <;> simp [sortKeyVal, h]
  · intro field items
    have hs := List.sorted_insertionSort (sortRel field false) items
    refine List.Pairwise.imp ?_ hs
    intro x y hxy s hx hsne hy
    have hkx : sortKeyVal field false x = .pstr s := by simp [sortKeyVal, hx]
    have hky : sortKeyVal field false y = .pstr "" := by simp [sortKeyVal, hy]
    have : pyLtB (sortKeyVal field false y) (sortKeyVal field false x) = false := hxy
    rw [hkx, hky] at this
    simp only [pyLtB] at this
    rw [charsLt_nil_cons s hsne] at this
    cases this
  · intro field items
    have hs := List.sorted_insertionSort (sortRel field true) items
    refine List.Pairwise.imp ?_ hs
    intro x y hxy hx s hy
    have hkx : sortKeyVal field true x = .pbool false := by simp [sortKeyVal, hx]
    have hky : sortKeyVal field true y = .pstr s := by simp [sortKeyVal, hy]
    have : pyLtB (sortKeyVal field true x) (sortKeyVal field true y) = false := hxy
    rw [hkx, hky] at this
    simp [pyLtB] at this

/-- **C7 counterexample.** With an ascending sort on `name`, the item
missing the field is placed at the top of the result, not the bottom as the
claim states. -/
theorem C7_sorted_counterexample :
    Library_sorted [[("name", PyValue.pstr "a")], ([] : PyDict)] ["name:asc"] =
      [([] : PyDict), [("name", PyValue.pstr "a")]] := by rfl

/-- Witness for C7: the suffix-parsing conjunct applied at `name:desc`. -/
theorem C7_sorted_amended_witness :
    parseSortToken ("name" ++ ":" ++ "desc") =
      ("name", decide (("desc" : String) ≠ "asc")) :=
  C7_sorted_amended.2.1 "name" "desc" (by decide) (by decide)

/-! ## `LibraryManager.find_items` (`tpQtLib/widgets/library/manager.py`)

The crawl walks a directory tree (`os.walk`, top-down, yielding each
root's files and subdirectories before descending).  The filesystem is a
rose tree; `FSList` is a specialized list so the walk is a structural
recursion.  Paths are joined with `/` (`normalize_path` output), so for
separator-free entry names `root.count(os.path.sep) - start_depth` equals
the number of components below the crawl root, carried here as `rel`. -/

/-- A registered item class: its registry key (`cls.__name__`), its
`RegisterOrder`, `Extensions` and `EnableNestedItems` class attributes. -/
structure ItemClass where
  clsName : String
  RegisterOrder : Int
  Extensions : List String
  EnableNestedItems : Bool
  deriving Repr, DecidableEq

/-- `LibraryItem.match(path)` (`tpQtLib/widgets/library/items.py`): true
when the path ends with one of the class extensions. -/
def clsMatch (cls : ItemClass) (path : String) : Bool :=
  cls.Extensions.any (fun ext => ext.data.isSuffixOf path.data)

/-- `LibraryManager.registered_items()`: the registered classes sorted by
`RegisterOrder` (Python's stable `sorted`). -/
def registered_items (reg : List ItemClass) : List ItemClass :=
  List.insertionSort (fun a b => a.RegisterOrder ≤ b.RegisterOrder) reg

/-- `LibraryManager.item_from_path(path)`: `None` when an ignored substring
occurs in the path, otherwise the first registered class (in
`RegisterOrder`) whose extensions match. -/
def item_from_path (ignore : List String) (reg : List ItemClass) (path : String) :
    Option ItemClass :=
  if ignore.any (fun ig => pySubstr ig path) then none
  else (registered_items reg).find? (fun cls => clsMatch cls path)

mutual
/-- A filesystem entry: a file or a directory with its children. -/
inductive FSEntry where
  | file (name : String)
  | dir (name : String) (children : FSList)

/-- The ordered children of a directory (`os.listdir` order). -/
inductive FSList where
  | nil
  | cons (e : FSEntry) (rest : FSList)
end

/-- The `files` component of one `os.walk` step: names of plain files. -/
def fsFileNames : FSList → List String
  | .nil => []
  | .cons (.file n) rest => n :: fsFileNames rest
  | .cons (.dir _ _) rest => fsFileNames rest

/-- The `dirs` component of one `os.walk` step: names of subdirectories. -/
def fsDirNames : FSList → List String
  | .nil => []
  | .cons (.file _) rest => fsDirNames rest
  | .cons (.dir n _) rest => n :: fsDirNames rest

/-- Wellformedness of the children below one directory: subdirectory names
are non-empty and (together with all deeper levels) duplicate-free. -/
def fsWFChildren : FSList → Bool
  | .nil => true
  | .cons (.file _) rest => fsWFChildren rest
  | .cons (.dir n cs) rest =>
      decide (n ≠ "") && decide (fsDirNames cs).Nodup &&
        fsWFChildren cs && fsWFChildren rest

/-- Wellformedness of a directory tree (every level's subdirectory names
non-empty and duplicate-free), as holds for any real filesystem. -/
def fsWF (l : FSList) : Bool :=
  decide (fsDirNames l).Nodup && fsWFChildren l

/-- `os.path.join` chain below the crawl root. -/
def joinPath (root : String) (rel : List String) : String :=
  rel.foldl (fun acc n => acc ++ "/" ++ n) root

/-- One item yielded by the crawl: its path components below the crawl
root (its path is `joinPath root rel`) and the class that resolved it. -/
structure CrawlItem where
  rel : List String
  cls : ItemClass
  deriving Repr, DecidableEq

/-- The `for filename in files` loop of `find_items` at one walk step:
`files` has been extended with `dirs`; each name that resolves to an item
is yielded; a resolved item with `EnableNestedItems` false removes its
name from the pending `dirs` list (`dirs.remove(filename)`, a no-op guard
when `filename`/`dirs` are falsy; `ValueError` — the third component —
when the name is not in `dirs`, which aborts the generator). Returns
(yielded items, surviving dirs, error flag). -/
def findItemsNameLoop (ignore : List String) (reg : List ItemClass) (root : String)
    (rel : List String) (dirs : List String) :
    List String → List CrawlItem × List String × Bool
  | [] => ([], dirs, false)
  | fn :: rest =>
    match item_from_path ignore reg (joinPath root (rel ++ [fn])) with
    | some cls =>
      if ¬ cls.EnableNestedItems ∧ fn ≠ "" ∧ dirs ≠ [] then
        if fn ∈ dirs then
          let r := findItemsNameLoop ignore reg root rel (dirs.erase fn) rest
          (CrawlItem.mk (rel ++ [fn]) cls :: r.1, r.2)
        else ([CrawlItem.mk (rel ++ [fn]) cls], dirs, true)
      else
        let r := findItemsNameLoop ignore reg root rel dirs rest
        (CrawlItem.mk (rel ++ [fn]) cls :: r.1, r.2)
    | none =>
      findItemsNameLoop ignore reg root rel dirs rest

/-- The descent of `os.walk` below one already-processed walk step:
`rel` is the current root (relative to the crawl root), `surviving` the
`dirs` list left by that root's name loop, and the `FSList` its children.
Each surviving subdirectory is processed depth-first: its own name loop,
then — unless its depth reaches `maxDepth` (`del dirs[:]`) — its own
descent.  A `ValueError` aborts the whole walk, keeping prior yields. -/
def findItemsWalk (ignore : List String) (reg : List ItemClass) (maxDepth : Int)
    (root : String) (rel : List String) (surviving : List String) :
    FSList → List CrawlItem × Bool
  | .nil => ([], false)
  | .cons (.file _) rest => findItemsWalk ignore reg maxDepth root rel surviving rest
  | .cons (.dir n cs) rest =>
    if n ∈ surviving then
      let r1 := findItemsNameLoop ignore reg root (rel ++ [n]) (fsDirNames cs)
        (fsFileNames cs ++ fsDirNames cs)
      if r1.2.2 then (r1.1, true)
      else if ((rel ++ [n]).length : Int) ≥ maxDepth then
        let r2 := findItemsWalk ignore reg maxDepth root rel surviving rest
        (r1.1 ++ r2.1, r2.2)
      else
        let rsub := findItemsWalk ignore reg maxDepth root (rel ++ [n]) r1.2.1 cs
        if rsub.2 then (r1.1 ++ rsub.1, true)
        else
          let r2 := findItemsWalk ignore reg maxDepth root rel surviving rest
          (r1.1 ++ rsub.1 ++ r2.1, r2.2)
    else findItemsWalk ignore reg maxDepth root rel surviving rest

/-- `LibraryManager.find_items(path, depth)`: process the crawl root's own
walk step, stop right there when `depth == 1` (the `break`) or when the
root's depth already reaches `maxDepth` (`del dirs[:]` at depth 0), else
descend into the surviving subdirectories. -/
def LibraryManager_find_items (ignore : List String) (reg : List ItemClass)
    (maxDepth : Int) (root : String) (entries : FSList) : List CrawlItem × Bool :=
  let r1 := findItemsNameLoop ignore reg root [] (fsDirNames entries)
    (fsFileNames entries ++ fsDirNames entries)
  if r1.2.2 then (r1.1, true)
  else if maxDepth = 1 then (r1.1, false)
  else if (0 : Int) ≥ maxDepth then (r1.1, false)
  else
    let r2 := findItemsWalk ignore reg maxDepth root [] r1.2.1 entries
    (r1.1 ++ r2.1, r2.2)

/-! ## C2: crawl depth -/

theorem nameLoop_length (ignore : List String) (reg : List ItemClass) (root : String)
    (rel : List String) :
    ∀ (names dirs : List String) (it : CrawlItem),
      it ∈ (findItemsNameLoop ignore reg root rel dirs names).1 →
      it.rel.length = rel.length + 1 := by
  intro names
  induction names with
  | nil => intro dirs it h; simp [findItemsNameLoop] at h
  | cons fn rest ih =>
    intro dirs it h
    simp only [findItemsNameLoop] at h
    split at h
    · split at h
      · split at h
        · rcases List.mem_cons.mp h with rfl | h2
          · simp
          · exact ih _ it h2
        · rcases List.mem_cons.mp h with rfl | h2
          · simp
          · simp at h2
      · rcases List.mem_cons.mp h with rfl | h2
        · simp
        · exact ih dirs it h2
    · exact ih dirs it h

/-- Size of a tree, for strong induction over the walk. -/
def fsSize : FSList → Nat
  | .nil => 1
  | .cons (.file _) rest => 1 + fsSize rest
  | .cons (.dir _ cs) rest => 1 + fsSize cs + fsSize rest

theorem walk_length_bound (ignore : List String) (reg : List ItemClass)
    (maxDepth : Int) (root : String) :
    ∀ (k : Nat) (entries : FSList), fsSize entries ≤ k →
    ∀ (rel surviving : List String) (it : CrawlItem),
      (rel.length : Int) < maxDepth →
      it ∈ (findItemsWalk ignore reg maxDepth root rel surviving entries).1 →
      (it.rel.length : Int) ≤ maxDepth + 1 := by
  intro k
  induction k with
  | zero =>
    intro entries hsz
    cases entries with
    | nil => simp [fsSize] at hsz
    | cons e rest => cases e <;> simp [fsSize] at hsz
  | succ k ih =>
    intro entries hsz rel surviving it hrel h
    cases entries with
    | nil => simp [findItemsWalk] at h
    | cons e rest =>
      cases e with
      | file n =>
        have hr : fsSize rest ≤ k := by simp [fsSize] at hsz; omega
        exact ih rest hr rel surviving it hrel (by simpa [findItemsWalk] using h)
      | dir n cs =>
        have hcs : fsSize cs ≤ k := by simp [fsSize] at hsz; omega
        have hr : fsSize rest ≤ k := by simp [fsSize] at hsz; omega
        simp only [findItemsWalk] at h
        split at h
        · split at h
          · -- name-loop error: only its yields
            have := nameLoop_length ignore reg root (rel ++ [n]) _ _ it h
            rw [this]
            simp only [List.length_append, List.length_cons, List.length_nil]
            push_cast
            omega
          · split at h
            · -- depth limit reached: name-loop yields ++ rest walk
              rcases List.mem_append.mp h with h1 | h2
              · have := nameLoop_length ignore reg root (rel ++ [n]) _ _ it h1
                rw [this]
                simp only [List.length_append, List.length_cons, List.length_nil]
                push_cast
                omega
              · exact ih rest hr rel surviving it hrel h2
            · -- descend into cs, then maybe rest
              rename_i hdep
              push_neg at hdep
              split at h
              · rcases List.mem_append.mp h with h1 | h2
                · have := nameLoop_length ignore reg root (rel ++ [n]) _ _ it h1
                  rw [this]
                  simp only [List.length_append, List.length_cons, List.length_nil]
                  push_cast
                  omega
                · exact ih cs hcs (rel ++ [n]) _ it hdep h2
              · rcases List.mem_append.mp h with h12 | h3
                · rcases List.mem_append.mp h12 with h1 | h2
                  · have := nameLoop_length ignore reg root (rel ++ [n]) _ _ it h1
                    rw [this]
                    simp only [List.length_append, List.length_cons, List.length_nil]
                    push_cast
                    omega
                  · exact ih cs hcs (rel ++ [n]) _ it hdep h2
                · exact ih rest hr rel surviving it hrel h3
        · exact ih rest hr rel surviving it hrel h

/-- A catch-all registered class (every path ends with `""`), allowing
nested items. -/
def crawlCatchAll : ItemClass := ItemClass.mk "CatchAll" 10 [""] true

/-- A three-level directory chain `a/b/c` below the crawl root. -/
def crawlDeepTree : FSList :=
  .cons (.dir "a" (.cons (.dir "b" (.cons (.file "c") .nil)) .nil)) .nil

/-- **C2 (amended).** The crawl yields only items at depth `maxDepth + 1`
or less below the root (the walk stops descending once a directory's
depth reaches `maxDepth`, whose entries are one level deeper), and with
`depth == 1` it yields exactly the root's immediate children, descending
nowhere. -/
theorem C2_crawl_depth_amended :
    (∀ (ignore : List String) (reg : List ItemClass) (maxDepth : Int)
        (root : String) (entries : FSList) (it : CrawlItem), 0 ≤ maxDepth →
        it ∈ (LibraryManager_find_items ignore reg maxDepth root entries).1 →
        (it.rel.length : Int) ≤ maxDepth + 1)
  ∧ (∀ (ignore : List String) (reg : List ItemClass) (root : String)
        (entries : FSList) (it : CrawlItem),
        it ∈ (LibraryManager_find_items ignore reg 1 root entries).1 →
        it.rel.length = 1) := by
  constructor
  · intro ignore reg maxDepth root entries it hmd h
    simp only [LibraryManager_find_items] at h
    split at h
    · have h1 : it.rel.length = 1 := by
        simpa using nameLoop_length ignore reg root [] _ _ it h
      rw [h1]; push_cast; omega
    · split at h
      · have h1 : it.rel.length = 1 := by
          simpa using nameLoop_length ignore reg root [] _ _ it h
        rw [h1]; push_cast; omega
      · split at h
        · have h1 : it.rel.length = 1 := by
            simpa using nameLoop_length ignore reg root [] _ _ it h
          rw [h1]; push_cast; omega
        · rename_i hz
          push_neg at hz
          rcases List.mem_append.mp h with h1 | h2
          · have h1l : it.rel.length = 1 := by
              simpa using nameLoop_length ignore reg root [] _ _ it h1
            rw [h1l]; push_cast; omega
          · exact walk_length_bound ignore reg maxDepth root (fsSize entries) entries
              (le_refl _) [] _ it (by simpa using hz) h2
  · intro ignore reg root entries it h
    simp only [LibraryManager_find_items] at h
    split at h
    · simpa using nameLoop_length ignore reg root [] _ _ it h
    · simp only [if_true] at h
      simpa using nameLoop_length ignore reg root [] _ _ it h

/-- **C2 counterexample.** With `maxDepth = 2` over a depth-3 tree the
crawl yields an item at depth 3, contradicting "only items at depth ≤ 2".
-/
theorem C2_crawl_depth_counterexample :
    ∃ it ∈ (LibraryManager_find_items [] [crawlCatchAll] 2 "/r" crawlDeepTree).1,
      2 < it.rel.length :=
  ⟨CrawlItem.mk ["a", "b", "c"] crawlCatchAll, by decide, by decide⟩

/-- Witness for C2: the depth-3 item of the counterexample tree is within
the amended bound `maxDepth + 1 = 3`. -/
theorem C2_crawl_depth_amended_witness :
    ((CrawlItem.mk ["a", "b", "c"] crawlCatchAll).rel.length : Int) ≤ 2 + 1 :=
  C2_crawl_depth_amended.1 [] [crawlCatchAll] 2 "/r" crawlDeepTree
    (CrawlItem.mk ["a", "b", "c"] crawlCatchAll) (by decide) (by decide)

/-! ## C3: nested-item pruning -/

theorem nameLoop_surviving_subset (ignore : List String) (reg : List ItemClass)
    (root : String) (rel : List String) :
    ∀ (names dirs : List String),
      (findItemsNameLoop ignore reg root rel dirs names).2.1 ⊆ dirs := by
  intro names
  induction names with
  | nil => intro dirs; simp [findItemsNameLoop]
  | cons fn rest ih =>
    intro dirs
    simp only [findItemsNameLoop]
    split
    · split
      · split
        · exact fun x hx => List.erase_subset fn dirs (ih (dirs.erase fn) hx)
        · simp
      · exact ih dirs
    · exact ih dirs

theorem nameLoop_resolves (ignore : List String) (reg : List ItemClass)
    (root : String) (rel : List String) :
    ∀ (names dirs : List String) (it : CrawlItem),
      it ∈ (findItemsNameLoop ignore reg root rel dirs names).1 →
      ∃ fn, fn ∈ names ∧ it.rel = rel ++ [fn] ∧
        item_from_path ignore reg (joinPath root (rel ++ [fn])) = some it.cls := by
  intro names
  induction names with
  | nil => intro dirs it h; simp [findItemsNameLoop] at h
  | cons fn rest ih =>
    intro dirs it h
    simp only [findItemsNameLoop] at h
    split at h
    · rename_i cls hres
      split at h
      · split at h
        · rcases List.mem_cons.mp h with rfl | h2
          · exact ⟨fn, List.mem_cons_self fn rest, rfl, hres⟩
          · rcases ih _ it h2 with ⟨g, hg, hrel, hr⟩
            exact ⟨g, List.mem_cons_of_mem fn hg, hrel, hr⟩
        · rcases List.mem_singleton.mp h with rfl
          exact ⟨fn, List.mem_cons_self fn rest, rfl, hres⟩
      · rcases List.mem_cons.mp h with rfl | h2
        · exact ⟨fn, List.mem_cons_self fn rest, rfl, hres⟩
        · rcases ih dirs it h2 with ⟨g, hg, hrel, hr⟩
          exact ⟨g, List.mem_cons_of_mem fn hg, hrel, hr⟩
    · rcases ih dirs it h with ⟨g, hg, hrel, hr⟩
      exact ⟨g, List.mem_cons_of_mem fn hg, hrel, hr⟩

theorem nameLoop_removes (ignore : List String) (reg : List ItemClass)
    (root : String) (rel : List String) :
    ∀ (names dirs : List String) (fn : String) (cls : ItemClass),
      fn ∈ names →
      item_from_path ignore reg (joinPath root (rel ++ [fn])) = some cls →
      cls.EnableNestedItems = false → fn ≠ "" → fn ∈ dirs → dirs.Nodup →
      (findItemsNameLoop ignore reg root rel dirs names).2.2 = false →
      fn ∉ (findItemsNameLoop ignore reg root rel dirs names).2.1 := by
  intro names
  induction names with
  | nil => intro dirs fn cls h; simp at h
  | cons g rest ih =>
    intro dirs fn cls hmem hres hnest hne hdirs hnd herr
    by_cases hg : g = fn
    · subst hg
      -- the removal iteration itself
      simp only [findItemsNameLoop, hres] at herr ⊢
      have hcond : ¬ cls.EnableNestedItems ∧ g ≠ "" ∧ dirs ≠ [] := by
        refine ⟨by simp [hnest], hne, ?_⟩
        intro hnil; rw [hnil] at hdirs; simp at hdirs
      rw [if_pos hcond, if_pos hdirs] at herr ⊢
      intro hin
      have hsub := nameLoop_surviving_subset ignore reg root rel rest (dirs.erase g) hin
      exact (List.Nodup.not_mem_erase hnd) hsub
    · have hmem2 : fn ∈ rest := by
        rcases List.mem_cons.mp hmem with h1 | h2
        · exact absurd h1.symm hg
        · exact h2
      rcases hres2 : item_from_path ignore reg (joinPath root (rel ++ [g])) with _ | cls2
      · simp only [findItemsNameLoop, hres2] at herr ⊢
        exact ih dirs fn cls hmem2 hres hnest hne hdirs hnd herr
      · by_cases hcond : ¬ cls2.EnableNestedItems ∧ g ≠ "" ∧ dirs ≠ []
        · by_cases hgdirs : g ∈ dirs
          · have hfn2 : fn ∈ dirs.erase g :=
              (List.Nodup.mem_erase_iff hnd).mpr ⟨Ne.symm hg, hdirs⟩
            simp only [findItemsNameLoop, hres2, if_pos hcond, if_pos hgdirs] at herr ⊢
            exact ih (dirs.erase g) fn cls hmem2 hres hnest hne hfn2 (hnd.erase g) herr
          · simp only [findItemsNameLoop, hres2, if_neg hgdirs] at herr
            rw [if_pos hcond] at herr
            simp at herr
        · simp only [findItemsNameLoop, hres2, if_neg hcond] at herr ⊢
          exact ih dirs fn cls hmem2 hres hnest hne hdirs hnd herr

theorem wfChildren_dir_ne : ∀ (l : FSList), fsWFChildren l = true →
    ∀ m ∈ fsDirNames l, m ≠ ""
  | .nil => by simp [fsDirNames]
  | .cons (.file n) rest => by
    intro h m hm
    exact wfChildren_dir_ne rest (by simpa [fsWFChildren] using h) m
      (by simpa [fsDirNames] using hm)
  | .cons (.dir n cs) rest => by
    intro h m hm
    simp only [fsWFChildren, Bool.and_eq_true, decide_eq_true_eq] at h
    rcases List.mem_cons.mp (by simpa [fsDirNames] using hm) with rfl | h2
    · exact h.1.1.1
    · exact wfChildren_dir_ne rest h.2 m h2

theorem walk_shape (ignore : List String) (reg : List ItemClass)
    (maxDepth : Int) (root : String) :
    ∀ (k : Nat) (entries : FSList), fsSize entries ≤ k →
    ∀ (rel surviving : List String) (it : CrawlItem),
      it ∈ (findItemsWalk ignore reg maxDepth root rel surviving entries).1 →
      ∃ m rest2, it.rel = rel ++ m :: rest2 ∧ m ∈ surviving ∧
        m ∈ fsDirNames entries ∧ rest2 ≠ [] := by
  intro k
  induction k with
  | zero =>
    intro entries hsz
    cases entries with
    | nil => simp [fsSize] at hsz
    | cons e rest => cases e <;> simp [fsSize] at hsz
  | succ k ih =>
    intro entries hsz rel surviving it h
    cases entries with
    | nil => simp [findItemsWalk] at h
    | cons e rest =>
      cases e with
      | file n =>
        have hr : fsSize rest ≤ k := by simp [fsSize] at hsz; omega
        rcases ih rest hr rel surviving it (by simpa [findItemsWalk] using h) with
          ⟨m, r2, h1, h2, h3, h4⟩
        exact ⟨m, r2, h1, h2, by simpa [fsDirNames] using h3, h4⟩
      | dir n cs =>
        have hcs : fsSize cs ≤ k := by simp [fsSize] at hsz; omega
        have hr : fsSize rest ≤ k := by simp [fsSize] at hsz; omega
        simp only [findItemsWalk] at h
        split at h
        · rename_i hsurv
          have hA : ∀ j : CrawlItem,
              j ∈ (findItemsNameLoop ignore reg root (rel ++ [n]) (fsDirNames cs)
                (fsFileNames cs ++ fsDirNames cs)).1 →
              ∃ m rest2, j.rel = rel ++ m :: rest2 ∧ m ∈ surviving ∧
                m ∈ fsDirNames (FSList.cons (FSEntry.dir n cs) rest) ∧ rest2 ≠ [] := by
            intro j hj
            rcases nameLoop_resolves ignore reg root (rel ++ [n]) _ _ j hj with
              ⟨fn, _, hrel, _⟩
            refine ⟨n, [fn], by simpa using hrel, hsurv, ?_, by simp⟩
            simp [fsDirNames]
          have hB : ∀ j : CrawlItem,
              j ∈ (findItemsWalk ignore reg maxDepth root (rel ++ [n])
                (findItemsNameLoop ignore reg root (rel ++ [n]) (fsDirNames cs)
                  (fsFileNames cs ++ fsDirNames cs)).2.1 cs).1 →
              ∃ m rest2, j.rel = rel ++ m :: rest2 ∧ m ∈ surviving ∧
                m ∈ fsDirNames (FSList.cons (FSEntry.dir n cs) rest) ∧ rest2 ≠ [] := by
            intro j hj
            rcases ih cs hcs (rel ++ [n]) _ j hj with ⟨m, r2, h1, _, _, _⟩
            refine ⟨n, m :: r2, by simpa using h1, hsurv, ?_, by simp⟩
            simp [fsDirNames]
          have hC : ∀ j : CrawlItem,
              j ∈ (findItemsWalk ignore reg maxDepth root rel surviving rest).1 →
              ∃ m rest2, j.rel = rel ++ m :: rest2 ∧ m ∈ surviving ∧
                m ∈ fsDirNames (FSList.cons (FSEntry.dir n cs) rest) ∧ rest2 ≠ [] := by
            intro j hj
            rcases ih rest hr rel surviving j hj with ⟨m, r2, h1, h2, h3, h4⟩
            exact ⟨m, r2, h1, h2, by simp [fsDirNames, h3], h4⟩
          split at h
          · exact hA it h
          · split at h
            · rcases List.mem_append.mp h with h1 | h2
              · exact hA it h1
              · exact hC it h2
            · split at h
              · rcases List.mem_append.mp h with h1 | h2
                · exact hA it h1
                · exact hB it h2
              · rcases List.mem_append.mp h with h12 | h3
                · rcases List.mem_append.mp h12 with h1 | h2
                  · exact hA it h1
                  · exact hB it h2
                · exact hC it h3
        · rcases ih rest hr rel surviving it h with ⟨m, r2, h1, h2, h3, h4⟩
          exact ⟨m, r2, h1, h2, by simp [fsDirNames, h3], h4⟩

theorem walk_prune (ignore : List String) (reg : List ItemClass)
    (maxDepth : Int) (root : String) :
    ∀ (k : Nat) (entries : FSList), fsSize entries ≤ k →
    ∀ (rel surviving : List String),
      (fsDirNames entries).Nodup → fsWFChildren entries = true →
      ∀ (i1 i2 : CrawlItem),
        i1 ∈ (findItemsWalk ignore reg maxDepth root rel surviving entries).1 →
        i2 ∈ (findItemsWalk ignore reg maxDepth root rel surviving entries).1 →
        i1.cls.EnableNestedItems = false →
        i1.rel <+: i2.rel → i1.rel ≠ i2.rel → False := by
  intro k
  induction k with
  | zero =>
    intro entries hsz
    cases entries with
    | nil => simp [fsSize] at hsz
    | cons e rest => cases e <;> simp [fsSize] at hsz
  | succ k ih =>
    intro entries hsz rel surviving hnd hwf i1 i2 h1 h2 hnest hp hne
    cases entries with
    | nil => simp [findItemsWalk] at h1
    | cons e rest =>
      cases e with
      | file n =>
        have hr : fsSize rest ≤ k := by simp [fsSize] at hsz; omega
        exact ih rest hr rel surviving (by simpa [fsDirNames] using hnd)
          (by simpa [fsWFChildren] using hwf) i1 i2
          (by simpa [findItemsWalk] using h1) (by simpa [findItemsWalk] using h2)
          hnest hp hne
      | dir n cs =>
        have hcs : fsSize cs ≤ k := by simp [fsSize] at hsz; omega
        have hr : fsSize rest ≤ k := by simp [fsSize] at hsz; omega
        have hndc := hnd
        simp only [fsDirNames, List.nodup_cons] at hndc
        have hwfc := hwf
        simp only [fsWFChildren, Bool.and_eq_true, decide_eq_true_eq] at hwfc
        simp only [findItemsWalk] at h1 h2
        by_cases hsurv : n ∈ surviving
        case neg =>
          rw [if_neg hsurv] at h1 h2
          exact ih rest hr rel surviving hndc.2 hwfc.2 i1 i2 h1 h2 hnest hp hne
        rw [if_pos hsurv] at h1 h2
        -- shapes of the three segments
        have hA : ∀ j : CrawlItem,
            j ∈ (findItemsNameLoop ignore reg root (rel ++ [n]) (fsDirNames cs)
              (fsFileNames cs ++ fsDirNames cs)).1 →
            ∃ fn, j.rel = (rel ++ [n]) ++ [fn] ∧
              item_from_path ignore reg
                (joinPath root ((rel ++ [n]) ++ [fn])) = some j.cls := by
          intro j hj
          rcases nameLoop_resolves ignore reg root (rel ++ [n]) _ _ j hj with
            ⟨fn, _, hrel, hres⟩
          exact ⟨fn, hrel, by rw [← hrel]; rw [hrel]; exact hres⟩
        have hB : ∀ j : CrawlItem,
            j ∈ (findItemsWalk ignore reg maxDepth root (rel ++ [n])
              (findItemsNameLoop ignore reg root (rel ++ [n]) (fsDirNames cs)
                (fsFileNames cs ++ fsDirNames cs)).2.1 cs).1 →
            ∃ m r2, j.rel = (rel ++ [n]) ++ m :: r2 ∧
              m ∈ (findItemsNameLoop ignore reg root (rel ++ [n]) (fsDirNames cs)
                (fsFileNames cs ++ fsDirNames cs)).2.1 ∧
              m ∈ fsDirNames cs ∧ r2 ≠ [] :=
          fun j hj => walk_shape ignore reg maxDepth root (fsSize cs) cs (le_refl _)
            (rel ++ [n]) _ j hj
        have hC : ∀ j : CrawlItem,
            j ∈ (findItemsWalk ignore reg maxDepth root rel surviving rest).1 →
            ∃ m r2, j.rel = rel ++ m :: r2 ∧ m ∈ surviving ∧
              m ∈ fsDirNames rest ∧ r2 ≠ [] :=
          fun j hj => walk_shape ignore reg maxDepth root (fsSize rest) rest (le_refl _)
            rel surviving j hj
        -- pairwise segment handlers
        have hAA : i1 ∈ (findItemsNameLoop ignore reg root (rel ++ [n]) (fsDirNames cs)
              (fsFileNames cs ++ fsDirNames cs)).1 →
            i2 ∈ (findItemsNameLoop ignore reg root (rel ++ [n]) (fsDirNames cs)
              (fsFileNames cs ++ fsDirNames cs)).1 → False := by
          intro j1 j2
          rcases hA i1 j1 with ⟨f1, e1, -⟩
          rcases hA i2 j2 with ⟨f2, e2, -⟩
          apply hne
          apply hp.eq_of_length
          rw [e1, e2]; simp
        have hAB : (findItemsNameLoop ignore reg root (rel ++ [n]) (fsDirNames cs)
              (fsFileNames cs ++ fsDirNames cs)).2.2 = false →
            i1 ∈ (findItemsNameLoop ignore reg root (rel ++ [n]) (fsDirNames cs)
              (fsFileNames cs ++ fsDirNames cs)).1 →
            i2 ∈ (findItemsWalk ignore reg maxDepth root (rel ++ [n])
              (findItemsNameLoop ignore reg root (rel ++ [n]) (fsDirNames cs)
                (fsFileNames cs ++ fsDirNames cs)).2.1 cs).1 → False := by
          intro herr j1 j2
          rcases hA i1 j1 with ⟨f1, e1, hres1⟩
          rcases hB i2 j2 with ⟨m, r2, e2, hmsurv, hmdir, -⟩
          have hp2 : [f1] <+: m :: r2 := by
            have hp' := hp
            rw [e1, e2] at hp'
            exact (List.prefix_append_right_inj _).mp hp'
          rcases List.cons_prefix_cons.mp hp2 with ⟨rfl, -⟩
          exact nameLoop_removes ignore reg root (rel ++ [n]) _ (fsDirNames cs) f1 i1.cls
            (List.mem_append.mpr (Or.inr hmdir)) hres1 hnest
            (wfChildren_dir_ne cs hwfc.1.2 f1 hmdir) hmdir hwfc.1.1.2 herr hmsurv
        have hAC : i1 ∈ (findItemsNameLoop ignore reg root (rel ++ [n]) (fsDirNames cs)
              (fsFileNames cs ++ fsDirNames cs)).1 →
            i2 ∈ (findItemsWalk ignore reg maxDepth root rel surviving rest).1 → False := by
          intro j1 j2
          rcases hA i1 j1 with ⟨f1, e1, -⟩
          rcases hC i2 j2 with ⟨m, r2, e2, -, hmdir, -⟩
          have hp2 : n :: [f1] <+: m :: r2 := by
            have hp' := hp
            rw [e1, e2, List.append_assoc] at hp'
            exact (List.prefix_append_right_inj _).mp hp'
          rcases List.cons_prefix_cons.mp hp2 with ⟨rfl, -⟩
          exact hndc.1 hmdir
        have hBA : i1 ∈ (findItemsWalk ignore reg maxDepth root (rel ++ [n])
              (findItemsNameLoop ignore reg root (rel ++ [n]) (fsDirNames cs)
                (fsFileNames cs ++ fsDirNames cs)).2.1 cs).1 →
            i2 ∈ (findItemsNameLoop ignore reg root (rel ++ [n]) (fsDirNames cs)
              (fsFileNames cs ++ fsDirNames cs)).1 → False := by
          intro j1 j2
          rcases hB i1 j1 with ⟨m, r2, e1, -, -, hr2⟩
          rcases hA i2 j2 with ⟨f2, e2, -⟩
          have hlen := hp.length_le
          rw [e1, e2] at hlen
          simp at hlen
          rcases r2 with _ | ⟨x, xs⟩
          · exact hr2 rfl
          · simp at hlen
        have hBC : i1 ∈ (findItemsWalk ignore reg maxDepth root (rel ++ [n])
              (findItemsNameLoop ignore reg root (rel ++ [n]) (fsDirNames cs)
                (fsFileNames cs ++ fsDirNames cs)).2.1 cs).1 →
            i2 ∈ (findItemsWalk ignore reg maxDepth root rel surviving rest).1 → False := by
          intro j1 j2
          rcases hB i1 j1 with ⟨m, r2, e1, -, -, -⟩
          rcases hC i2 j2 with ⟨m2, r3, e2, -, hmdir, -⟩
          have hp2 : n :: (m :: r2) <+: m2 :: r3 := by
            have hp' := hp
            rw [e1, e2, List.append_assoc] at hp'
            exact (List.prefix_append_right_inj _).mp hp'
          rcases List.cons_prefix_cons.mp hp2 with ⟨rfl, -⟩
          exact hndc.1 hmdir
        have hCx : i1 ∈ (findItemsWalk ignore reg maxDepth root rel surviving rest).1 →
            ∀ (tail : List String), i2.rel = (rel ++ [n]) ++ tail → False := by
          intro j1 tail e2
          rcases hC i1 j1 with ⟨m, r2, e1, -, hmdir, -⟩
          have hp2 : m :: r2 <+: n :: tail := by
            have hp' := hp
            rw [e1, e2, List.append_assoc] at hp'
            exact (List.prefix_append_right_inj _).mp hp'
          rcases List.cons_prefix_cons.mp hp2 with ⟨rfl, -⟩
          exact hndc.1 hmdir
        have hBB : i1 ∈ (findItemsWalk ignore reg maxDepth root (rel ++ [n])
              (findItemsNameLoop ignore reg root (rel ++ [n]) (fsDirNames cs)
                (fsFileNames cs ++ fsDirNames cs)).2.1 cs).1 →
            i2 ∈ (findItemsWalk ignore reg maxDepth root (rel ++ [n])
              (findItemsNameLoop ignore reg root (rel ++ [n]) (fsDirNames cs)
                (fsFileNames cs ++ fsDirNames cs)).2.1 cs).1 → False :=
          fun j1 j2 => ih cs hcs (rel ++ [n]) _ hwfc.1.1.2 hwfc.1.2 i1 i2 j1 j2 hnest hp hne
        have hCC : i1 ∈ (findItemsWalk ignore reg maxDepth root rel surviving rest).1 →
            i2 ∈ (findItemsWalk ignore reg maxDepth root rel surviving rest).1 → False :=
          fun j1 j2 => ih rest hr rel surviving hndc.2 hwfc.2 i1 i2 j1 j2 hnest hp hne
        by_cases herr0 : (findItemsNameLoop ignore reg root (rel ++ [n]) (fsDirNames cs)
            (fsFileNames cs ++ fsDirNames cs)).2.2 = true
        case pos =>
          rw [if_pos herr0] at h1 h2
          exact hAA h1 h2
        rw [if_neg herr0] at h1 h2
        have herr : (findItemsNameLoop ignore reg root (rel ++ [n]) (fsDirNames cs)
            (fsFileNames cs ++ fsDirNames cs)).2.2 = false := by
          simpa using herr0
        by_cases hdep : ((rel ++ [n]).length : Int) ≥ maxDepth
        case pos =>
          rw [if_pos hdep] at h1 h2
          rcases List.mem_append.mp h1 with g1 | g1 <;>
            rcases List.mem_append.mp h2 with g2 | g2
          · exact hAA g1 g2
          · exact hAC g1 g2
          · rcases hA i2 g2 with ⟨f2, e2, -⟩
            exact hCx g1 [f2] e2
          · exact hCC g1 g2
        rw [if_neg hdep] at h1 h2
        by_cases hsub2 : (findItemsWalk ignore reg maxDepth root (rel ++ [n])
            (findItemsNameLoop ignore reg root (rel ++ [n]) (fsDirNames cs)
              (fsFileNames cs ++ fsDirNames cs)).2.1 cs).2 = true
        case pos =>
          rw [if_pos hsub2] at h1 h2
          rcases List.mem_append.mp h1 with g1 | g1 <;>
            rcases List.mem_append.mp h2 with g2 | g2
          · exact hAA g1 g2
          · exact hAB herr g1 g2
          · exact hBA g1 g2
          · exact hBB g1 g2
        rw [if_neg hsub2] at h1 h2
        rcases List.mem_append.mp h1 with g1' | g1C
        · rcases List.mem_append.mp h2 with g2' | g2C
          · rcases List.mem_append.mp g1' with g1 | g1 <;>
              rcases List.mem_append.mp g2' with g2 | g2
            · exact hAA g1 g2
            · exact hAB herr g1 g2
            · exact hBA g1 g2
            · exact hBB g1 g2
          · rcases List.mem_append.mp g1' with g1 | g1
            · exact hAC g1 g2C
            · exact hBC g1 g2C
        · rcases List.mem_append.mp h2 with g2' | g2C
          · rcases List.mem_append.mp g2' with g2 | g2
            · rcases hA i2 g2 with ⟨f2, e2, -⟩
              exact hCx g1C [f2] e2
            · rcases hB i2 g2 with ⟨m, r2, e2, -, -, -⟩
              exact hCx g1C (m :: r2) e2
          · exact hCC g1C g2C

/-- **C3.** In a wellformed tree (non-empty, duplicate-free subdirectory
names per level, as on a real filesystem), if the crawl resolves an item
whose class has `EnableNestedItems = false`, then no path strictly below
that item's path is yielded by the same crawl: any yielded path extending
it is the item's own path. -/
theorem C3_nested_pruning (ignore : List String) (reg : List ItemClass)
    (maxDepth : Int) (root : String) (entries : FSList)
    (hwf : fsWF entries = true) :
    ∀ i1 ∈ (LibraryManager_find_items ignore reg maxDepth root entries).1,
      i1.cls.EnableNestedItems = false →
      ∀ i2 ∈ (LibraryManager_find_items ignore reg maxDepth root entries).1,
        i1.rel <+: i2.rel → i2.rel = i1.rel := by
  intro i1 h1 hnest i2 h2 hp
  by_contra hne2
  have hne : i1.rel ≠ i2.rel := fun he => hne2 he.symm
  simp only [fsWF, Bool.and_eq_true, decide_eq_true_eq] at hwf
  have hnd := hwf.1
  have hch := hwf.2
  simp only [LibraryManager_find_items] at h1 h2
  have hAA : i1 ∈ (findItemsNameLoop ignore reg root [] (fsDirNames entries)
        (fsFileNames entries ++ fsDirNames entries)).1 →
      i2 ∈ (findItemsNameLoop ignore reg root [] (fsDirNames entries)
        (fsFileNames entries ++ fsDirNames entries)).1 → False := by
    intro j1 j2
    apply hne
    apply hp.eq_of_length
    rw [nameLoop_length ignore reg root [] _ _ i1 j1,
      nameLoop_length ignore reg root [] _ _ i2 j2]
  have hAW : (findItemsNameLoop ignore reg root [] (fsDirNames entries)
        (fsFileNames entries ++ fsDirNames entries)).2.2 = false →
      i1 ∈ (findItemsNameLoop ignore reg root [] (fsDirNames entries)
        (fsFileNames entries ++ fsDirNames entries)).1 →
      i2 ∈ (findItemsWalk ignore reg maxDepth root []
        (findItemsNameLoop ignore reg root [] (fsDirNames entries)
          (fsFileNames entries ++ fsDirNames entries)).2.1 entries).1 → False := by
    intro herr j1 j2
    rcases nameLoop_resolves ignore reg root [] _ _ i1 j1 with ⟨f1, -, e1, hres1⟩
    rcases walk_shape ignore reg maxDepth root (fsSize entries) entries (le_refl _)
      [] _ i2 j2 with ⟨m, r2, e2, hmsurv, hmdir, -⟩
    have hp2 : [f1] <+: m :: r2 := by
      have hp' := hp
      rw [e1, e2] at hp'
      simpa using hp'
    rcases List.cons_prefix_cons.mp hp2 with ⟨rfl, -⟩
    exact nameLoop_removes ignore reg root [] _ (fsDirNames entries) f1 i1.cls
      (List.mem_append.mpr (Or.inr hmdir)) hres1 hnest
      (wfChildren_dir_ne entries hch f1 hmdir) hmdir hnd herr hmsurv
  have hWA : i1 ∈ (findItemsWalk ignore reg maxDepth root []
        (findItemsNameLoop ignore reg root [] (fsDirNames entries)
          (fsFileNames entries ++ fsDirNames entries)).2.1 entries).1 →
      i2 ∈ (findItemsNameLoop ignore reg root [] (fsDirNames entries)
        (fsFileNames entries ++ fsDirNames entries)).1 → False := by
    intro j1 j2
    rcases walk_shape ignore reg maxDepth root (fsSize entries) entries (le_refl _)
      [] _ i1 j1 with ⟨m, r2, e1, -, -, hr2⟩
    have hlen := hp.length_le
    rw [e1, nameLoop_length ignore reg root [] _ _ i2 j2] at hlen
    rcases r2 with _ | ⟨x, xs⟩
    · exact hr2 rfl
    · simp at hlen
  have hWW : i1 ∈ (findItemsWalk ignore reg maxDepth root []
        (findItemsNameLoop ignore reg root [] (fsDirNames entries)
          (fsFileNames entries ++ fsDirNames entries)).2.1 entries).1 →
      i2 ∈ (findItemsWalk ignore reg maxDepth root []
        (findItemsNameLoop ignore reg root [] (fsDirNames entries)
          (fsFileNames entries ++ fsDirNames entries)).2.1 entries).1 → False :=
    fun j1 j2 => walk_prune ignore reg maxDepth root (fsSize entries) entries (le_refl _)
      [] _ hnd hch i1 i2 j1 j2 hnest hp hne
  by_cases herr0 : (findItemsNameLoop ignore reg root [] (fsDirNames entries)
      (fsFileNames entries ++ fsDirNames entries)).2.2 = true
  case pos =>
    rw [if_pos herr0] at h1 h2
    exact hAA h1 h2
  rw [if_neg herr0] at h1 h2
  have herr : (findItemsNameLoop ignore reg root [] (fsDirNames entries)
      (fsFileNames entries ++ fsDirNames entries)).2.2 = false := by simpa using herr0
  by_cases hd1 : maxDepth = 1
  case pos =>
    rw [if_pos hd1] at h1 h2
    exact hAA h1 h2
  rw [if_neg hd1] at h1 h2
  by_cases hd0 : (0 : Int) ≥ maxDepth
  case pos =>
    rw [if_pos hd0] at h1 h2
    exact hAA h1 h2
  rw [if_neg hd0] at h1 h2
  rcases List.mem_append.mp h1 with g1 | g1 <;> rcases List.mem_append.mp h2 with g2 | g2
  · exact hAA g1 g2
  · exact hAW herr g1 g2
  · exact hWA g1 g2
  · exact hWW g1 g2

/-- A class matching `.grp` paths that forbids nested items, registered
before the catch-all. -/
def crawlNoNest : ItemClass := ItemClass.mk "NoNest" 5 [".grp"] false

/-- A tree with a `.grp` directory containing a file, next to a plain
directory. -/
def crawlGrpTree : FSList :=
  .cons (.dir "x.grp" (.cons (.file "inside") .nil))
    (.cons (.dir "y" (.cons (.file "z") .nil)) .nil)

/-- Witness for C3 on the concrete `.grp` scenario. -/
theorem C3_nested_pruning_witness :
    (CrawlItem.mk ["x.grp"] crawlNoNest).rel = (CrawlItem.mk ["x.grp"] crawlNoNest).rel :=
  C3_nested_pruning [] [crawlNoNest, crawlCatchAll] 5 "/r" crawlGrpTree (by decide)
    (CrawlItem.mk ["x.grp"] crawlNoNest) (by decide) (by decide)
    (CrawlItem.mk ["x.grp"] crawlNoNest) (by decide) (List.prefix_refl _)

/-! ## C1: `MetadataStore.write` crash safety
(`tpQtLib/widgets/library/utils.py` `write`)

The three files `path`, `path+".tmp"`, `path+".bak"` are the state; the
write body after the lock check is a sequence of atomic filesystem
operations (each conditional evaluated against the state it runs in), and
a crash is injected after any number of completed operations, after which
the `except` handler runs and the exception is re-raised. -/

/-- Contents of the canonical file, the `.tmp` and the `.bak`. -/
structure FS3 where
  main : Option String
  tmp : Option String
  bak : Option String
  deriving Repr, DecidableEq

/-- The atomic steps of the write body, in program order:
`open(tmp,'w')` (creates/truncates), `f.write(data); f.flush()`,
`if exists(bak): remove(bak)`, `if exists(path): rename(path, bak)`,
`if exists(tmp): rename(tmp, path)`,
`if exists(path) and exists(bak): remove(bak)`. -/
def writeSteps (data : String) : List (FS3 → FS3) :=
  [ fun s => { s with tmp := some "" },
    fun s => { s with tmp := some data },
    fun s => if s.bak.isSome then { s with bak := none } else s,
    fun s => if s.main.isSome then { s with bak := s.main, main := none } else s,
    fun s => if s.tmp.isSome then { s with main := s.tmp, tmp := none } else s,
    fun s => if s.main.isSome ∧ s.bak.isSome then { s with bak := none } else s ]

/-- The state after the first `k` steps of the body. -/
def writeBodyPrefix (data : String) (k : Nat) (s : FS3) : FS3 :=
  ((writeSteps data).take k).foldl (fun st f => f st) s

/-- The `except` handler: delete the `.tmp` if present; if `path` is
missing and `.bak` exists, rename `.bak` back to `path`; then re-raise. -/
def writeExceptHandler (s : FS3) : FS3 :=
  let s1 := if s.tmp.isSome then { s with tmp := none } else s
  if ¬ s1.main.isSome ∧ s1.bak.isSome then { s1 with main := s1.bak, bak := none } else s1

/-- `write(path, data)` with an injected crash point: `none` runs the whole
body, `some k` raises after `k` completed steps and runs the handler.
`.error` states carry the filesystem state at which the call raised
(the lock error, or the re-raised body exception). -/
def LibraryUtils_write (s : FS3) (data : String) (failAfter : Option Nat) :
    Except FS3 FS3 :=
  if s.tmp.isSome then .error s
  else
    match failAfter with
    | none => .ok (writeBodyPrefix data (writeSteps data).length s)
    | some k => .error (writeExceptHandler (writeBodyPrefix data k s))

/-- **C1 (amended).** When the write body raises after a passed lock
check: the handler removes the `.tmp`; it restores `.bak` to `path`
whenever `path` is missing and `.bak` exists; the exception is re-raised;
and — provided a file existed at the canonical path when `write` was
called — some valid file (the old content or the new data) is present at
the canonical path afterwards.  (With no pre-existing file the canonical
path can be left missing; see the counterexample.) -/
theorem C1_write_crash_amended :
    (∀ (s : FS3) (data : String) (k : Nat),
        (writeExceptHandler (writeBodyPrefix data k s)).tmp = none)
  ∧ (∀ (s : FS3), s.main = none → s.bak.isSome →
        (writeExceptHandler s).main = s.bak ∧ (writeExceptHandler s).bak = none)
  ∧ (∀ (s : FS3) (data : String) (k : Nat), s.tmp = none →
        ∃ e, LibraryUtils_write s data (some k) = .error e)
  ∧ (∀ (s : FS3) (data : String) (k : Nat) (c : String),
        s.tmp = none → s.main = some c →
        (writeExceptHandler (writeBodyPrefix data k s)).main = some c ∨
        (writeExceptHandler (writeBodyPrefix data k s)).main = some data) := by
  refine ⟨?_, ?_, ?_, ?_⟩
  · intro s data k
    unfold writeExceptHandler
    rcases h : (writeBodyPrefix data k s).tmp with _ | t <;>
      simp [h] <;> split <;> simp_all
  · intro s hm hb
    rcases s with ⟨m, t, b⟩
    rcases b with _ | bc
    · simp at hb
    · cases hm
      rcases t with _ | tc <;> simp [writeExceptHandler]
  · intro s data k hs
    refine ⟨writeExceptHandler (writeBodyPrefix data k s), ?_⟩
    simp [LibraryUtils_write, hs]
  · intro s data k c ht hm
    rcases s with ⟨m, t, b⟩
    cases hm
    cases ht
    match k with
    | 0 => left; rcases b with _ | bc <;> simp [writeBodyPrefix, writeSteps, writeExceptHandler]
    | 1 => left; rcases b with _ | bc <;> simp [writeBodyPrefix, writeSteps, writeExceptHandler]
    | 2 => left; rcases b with _ | bc <;> simp [writeBodyPrefix, writeSteps, writeExceptHandler]
    | 3 => left; rcases b with _ | bc <;> simp [writeBodyPrefix, writeSteps, writeExceptHandler]
    | 4 => left; rcases b with _ | bc <;> simp [writeBodyPrefix, writeSteps, writeExceptHandler]
    | 5 => right; rcases b with _ | bc <;> simp [writeBodyPrefix, writeSteps, writeExceptHandler]
    | (n + 6) =>
      right
      rcases b with _ | bc <;>
        simp [writeBodyPrefix, writeSteps, List.take_of_length_le, writeExceptHandler]

/-- **C1 counterexample.** A first-ever write (no file at the canonical
path, no backup) that crashes immediately leaves nothing at the canonical
path after the handler runs, so "some valid file is present" fails as a
universal claim. -/
theorem C1_write_crash_counterexample :
    LibraryUtils_write (FS3.mk none none none) "data" (some 0) =
      .error (FS3.mk none none none) := by rfl

/-- Witness for C1: crash between the two renames with an existing file;
the old content is back at the canonical path. -/
theorem C1_write_crash_amended_witness :
    (writeExceptHandler (writeBodyPrefix "new" 4 (FS3.mk (some "old") none none))).main =
        some "old" ∨
    (writeExceptHandler (writeBodyPrefix "new" 4 (FS3.mk (some "old") none none))).main =
        some "new" :=
  C1_write_crash_amended.2.2.2 (FS3.mk (some "old") none none) "new" 4 "old" rfl rfl

/-! ## C5: missing root path (`Library.read` / `Library.save` / `Library.sync`,
`tpQtLib/core/library.py`)

Each method is modelled as the trace of externally visible effects it
performs.  `data_path()` is abstract in `Library` (it raises
`NotImplementedError` in the base class); it is a parameter here, so the
traces show whether the store is touched at all. -/

/-- Externally visible effects of the `Library` persistence methods. -/
inductive LibEffect where
  | logInfo (msg : String)
  | logWarn (msg : String)
  | readJson (path : String)
  | saveJson (path : String)
  | setDirty (v : Bool)
  deriving Repr, DecidableEq

/-- Python truthiness of the `self._path` attribute (`None` or `''` are
falsy). -/
def optTruthy : Option String → Bool
  | none => false
  | some s => decide (s ≠ "")

/-- `Library.read()`: early-return with a log when no path is set;
otherwise reload from disk when dirty. -/
def Library_read_trace (path : Option String) (dataPath : String) (dirty : Bool) :
    List LibEffect :=
  if ¬ optTruthy path then [.logInfo "No path set for reading the data from disk"]
  else if dirty then [.readJson dataPath, .setDirty false]
  else []

/-- `Library.save(data)`: logs when no path is set but does NOT return —
it proceeds to `LibraryUtils.save_json(self.data_path(), data)` and
`set_dirty(True)` unconditionally (the early `return` present in `read`
and `sync` is missing). -/
def Library_save_trace (path : Option String) (dataPath : String) : List LibEffect :=
  (if ¬ optTruthy path then [.logInfo "No path set for saving the data to disk"] else [])
    ++ [.saveJson dataPath, .setDirty true]

/-- `Library.sync(...)`: early-return with a warning when no path is set;
`rest` stands for the effects of the reconciliation body. -/
def Library_sync_trace (path : Option String) (rest : List LibEffect) : List LibEffect :=
  if ¬ optTruthy path then [.logWarn "No path set for syncing data"] else rest

/-- **C5 (code bug).** With no root path configured, `read()` and `sync()`
log and return without touching the store, but `save(data)` logs and then
STILL performs the write (`save_json(self.data_path(), data)`, which in
the base class even calls the abstract `data_path()`): the early return
is missing, so `save` is not a silent no-op as the spec claims. -/
theorem C5_no_path_behavior :
    (∀ (dataPath : String) (dirty : Bool),
        Library_read_trace none dataPath dirty =
          [.logInfo "No path set for reading the data from disk"])
  ∧ (∀ rest : List LibEffect,
        Library_sync_trace none rest = [.logWarn "No path set for syncing data"])
  ∧ (∀ dataPath : String,
        Library_save_trace none dataPath =
          [.logInfo "No path set for saving the data to disk",
            .saveJson dataPath, .setDirty true]) :=
  ⟨fun _ _ => rfl, fun _ => rfl, fun _ => rfl⟩

/-! ## MetadataStore content layer
(`tpQtLib/widgets/library/utils.py`: `absolute_path`, `read`, `read_json`,
`save_json`) -/

/-- Python `str.replace`, non-overlapping left-to-right, on character
lists; the fuel (instantiated with the haystack length) only serves
structural termination and never runs out for non-empty patterns. -/
def replaceGo (pat rep : List Char) : Nat → List Char → List Char
  | 0, s => s
  | _ + 1, [] => []
  | fuel + 1, c :: rest =>
    if pat.isPrefixOf (c :: rest) then
      rep ++ replaceGo pat rep fuel (List.drop pat.length (c :: rest))
    else c :: replaceGo pat rep fuel rest

/-- Python `s.replace(pat, rep)` (the embedding never calls it with an
empty pattern). -/
def strReplace (s pat rep : String) : String :=
  if pat.data = [] then s
  else ⟨replaceGo pat.data rep.data s.data.length s.data⟩

/-- `posixpath.dirname`: everything up to the last `/`, with trailing
slashes stripped unless the head is all slashes. -/
def dirnameChars (l : List Char) : List Char :=
  let revHead := l.reverse.dropWhile (· ≠ '/')
  if revHead.all (· = '/') then revHead.reverse
  else (revHead.dropWhile (· = '/')).reverse

/-- `os.path.dirname` on a normalized (forward-slash) path. -/
def dirnameStr (p : String) : String := ⟨dirnameChars p.data⟩

/-- The `if not rel_path.endswith("/"): rel_path += "/"` normalization. -/
def ensureSlash (s : String) : String :=
  match s.data.reverse with
  | '/' :: _ => s
  | _ => s ++ "/"

/-- `absolute_path(data, start)` (`tpQtLib/widgets/library/utils.py`):
expand `../`-relative fragments against `start`'s parent directories, up
to three levels (`tpPyUtils.path.normalize_path` is the identity on the
already-normalized forward-slash paths used here). -/
def absolute_path (data : String) (start : String) : String :=
  let d1 := dirnameStr start
  let d2 := dirnameStr d1
  let d3 := dirnameStr d2
  strReplace (strReplace (strReplace data "../../../" (ensureSlash d3))
    "../../" (ensureSlash d2)) "../" (ensureSlash d1)

/-- Modelled from the spec: `tpPyUtils.path.get_relative_path` is an
external dependency not under `src/`; the spec (§2, §4.1) describes the
store's relative-path rewriting as making stored data portable, the write
side being the inverse of `read`'s `../` expansion.  It is modelled as
replacing the data file's parent-directory prefix with `../`. -/
def get_relative_path (data : String) (path : String) : String :=
  strReplace data (ensureSlash (dirnameStr path)) "../"

/-- `LibraryUtils.read(path)`: the file's contents (`""` when absent or
empty) passed through `absolute_path`. -/
def LibraryUtils_read (fileContent : Option String) (path : String) : String :=
  absolute_path (fileContent.getD "") path

/-- JSON scalar values persisted in field maps (the library stores
strings, booleans and nulls; escaping-free strings are assumed via the
theorems' safety hypotheses). -/
inductive JValue where
  | jstr (s : String)
  | jbool (b : Bool)
  | jnull
  deriving Repr, DecidableEq

/-- One item's persisted fields map. -/
abbrev JFields := List (String × JValue)

/-- The library document: path → fields. -/
abbrev JDoc := List (String × JFields)

/-- `"…"` with no escaping (safety hypotheses exclude `"` and `\`). -/
def qChars (s : String) : List Char :=
  '"' :: s.data ++ ['"']

/-- `json.dumps` text of one scalar. -/
def scalarChars : JValue → List Char
  | .jstr s => qChars s
  | .jbool true => "true".data
  | .jbool false => "false".data
  | .jnull => "null".data

/-- The `",\n"`-separated entry lines of one object, each indented by
`pad`, the value rendered by `pv`. -/
def entriesChars (pv : α → List Char) (pad : List Char) : List (String × α) → List Char
  | [] => []
  | [(k, v)] => pad ++ qChars k ++ ':' :: ' ' :: pv v
  | (k, v) :: rest =>
    pad ++ qChars k ++ ':' :: ' ' :: pv v ++ ',' :: '\n' :: entriesChars pv pad rest

/-- `json.dumps(m, indent=4)` for a flat (fields) object. -/
def dumpFieldsChars (m : JFields) : List Char :=
  match m with
  | [] => "{}".data
  | _ => '{' :: '\n' :: entriesChars scalarChars "    ".data m ++ '\n' :: ['}']

/-- The rendering of one nested fields object inside the document
(`indent=4`, one level deep). -/
def dumpInnerChars (m : JFields) : List Char :=
  match m with
  | [] => "{}".data
  | _ => '{' :: '\n' :: entriesChars scalarChars "        ".data m ++
      '\n' :: "    \x7d".data

/-- `json.dumps(doc, indent=4)` for the two-level library document. -/
def dumpDocChars (d : JDoc) : List Char :=
  match d with
  | [] => "{}".data
  | _ => '{' :: '\n' :: entriesChars dumpInnerChars "    ".data d ++ '\n' :: ['}']

/-- Parser: expect the exact prefix `pre`. -/
def expectPre (pre : List Char) (s : List Char) : Except Unit (List Char) :=
  if pre.isPrefixOf s then .ok (s.drop pre.length) else .error ()

/-- Parser: the characters of a string literal up to the closing quote. -/
def scanQ : List Char → Except Unit (List Char × List Char)
  | [] => .error ()
  | c :: rest =>
    if c = '"' then .ok ([], rest)
    else do
      let (cs, r) ← scanQ rest
      .ok (c :: cs, r)

/-- Parser: a quoted string literal. -/
def parseStrLit : List Char → Except Unit (String × List Char)
  | '"' :: rest => do
    let (cs, r) ← scanQ rest
    .ok (⟨cs⟩, r)
  | _ => .error ()

/-- Parser: one JSON scalar. -/
def parseScalar (s : List Char) : Except Unit (JValue × List Char) :=
  match s with
  | '"' :: rest => do
    let (cs, r) ← scanQ rest
    .ok (.jstr ⟨cs⟩, r)
  | _ =>
    if "true".data.isPrefixOf s then .ok (.jbool true, s.drop 4)
    else if "false".data.isPrefixOf s then .ok (.jbool false, s.drop 5)
    else if "null".data.isPrefixOf s then .ok (.jnull, s.drop 4)
    else .error ()

/-- Parser: the entry lines of one object (at least one), generic in the
value parser `vp`; fuel is instantiated with the input length. -/
def parseEntriesG (vp : List Char → Except Unit (α × List Char)) (pad : List Char) :
    Nat → List Char → Except Unit (List (String × α) × List Char)
  | 0, _ => .error ()
  | fuel + 1, s => do
    let s1 ← expectPre pad s
    let (k, s2) ← parseStrLit s1
    let s3 ← expectPre [':', ' '] s2
    let (v, s4) ← vp s3
    match s4 with
    | ',' :: '\n' :: s5 => do
      let (rest, s6) ← parseEntriesG vp pad fuel s5
      .ok ((k, v) :: rest, s6)
    | _ => .ok ([(k, v)], s4)

/-- Parser: a whole flat JSON object, consuming the entire input (the
model of `json.loads` on the store's own serialization format; any other
content is a decode error, as `json.loads` raises). -/
def parseFieldsChars (s : List Char) : Except Unit JFields :=
  match s with
  | '{' :: '}' :: rest => if rest = [] then .ok [] else .error ()
  | '{' :: '\n' :: s1 => do
    let (m, s2) ← parseEntriesG parseScalar "    ".data s1.length s1
    match s2 with
    | ['\n', '}'] => .ok m
    | _ => .error ()
  | _ => .error ()

/-- Parser: one nested fields object inside the document. -/
def parseInner (s : List Char) : Except Unit (JFields × List Char) :=
  match s with
  | '{' :: '}' :: rest => .ok ([], rest)
  | '{' :: '\n' :: s1 => do
    let (m, s2) ← parseEntriesG parseScalar "        ".data s1.length s1
    match s2 with
    | '\n' :: ' ' :: ' ' :: ' ' :: ' ' :: '}' :: rest => .ok (m, rest)
    | _ => .error ()
  | _ => .error ()

/-- Parser: the whole two-level library document. -/
def parseDocChars (s : List Char) : Except Unit JDoc :=
  match s with
  | '{' :: '}' :: rest => if rest = [] then .ok [] else .error ()
  | '{' :: '\n' :: s1 => do
    let (d, s2) ← parseEntriesG parseInner "    ".data s1.length s1
    match s2 with
    | ['\n', '}'] => .ok d
    | _ => .error ()
  | _ => .error ()

/-- `LibraryUtils.read_json(path)` on a flat fields object:
`data = read(path) or '{}'`, then decode (a decode failure raises). -/
def LibraryUtils_read_json (fileContent : Option String) (path : String) :
    Except Unit JFields :=
  let data := LibraryUtils_read fileContent path
  let data := if data = "" then "{}" else data
  parseFieldsChars data.data

/-- **C6 (amended).** `read_json` returns an empty object for an absent
file and for empty content (the `or '{}'` default), but malformed
non-empty content raises a decode error (`json.loads` propagates). -/
theorem C6_read_json_amended :
    (∀ path : String, LibraryUtils_read_json none path = .ok [])
  ∧ (∀ path : String, LibraryUtils_read_json (some "") path = .ok [])
  ∧ (∀ path : String, LibraryUtils_read_json (some "{}") path = .ok []) :=
  ⟨fun _ => rfl, fun _ => rfl, fun _ => rfl⟩

/-- **C6 counterexample.** `read_json` raises on malformed non-empty
content instead of returning an empty object. -/
theorem C6_read_json_counterexample :
    LibraryUtils_read_json (some "not json") "/tmp/store/data.json" = .error () := by
  rfl

theorem exceptBindOk (a : α) (f : α → Except ε β) :
    (do let x ← Except.ok a; f x) = f a := rfl

theorem expectPre_append (pre rest : List Char) :
    expectPre pre (pre ++ rest) = .ok rest := by
  unfold expectPre
  rw [if_pos]
  · rw [List.drop_left]
  · exact List.isPrefixOf_iff_prefix.mpr (List.prefix_append pre rest)

theorem expectPre_colon_space (rest : List Char) :
    expectPre [':', ' '] (':' :: ' ' :: rest) = .ok rest := by
  have : ':' :: ' ' :: rest = [':', ' '] ++ rest := rfl
  rw [this, expectPre_append]

theorem scanQ_append : ∀ (cs : List Char), '"' ∉ cs → ∀ (rest : List Char),
    scanQ (cs ++ '"' :: rest) = .ok (cs, rest) := by
  intro cs
  induction cs with
  | nil => intro _ rest; simp [scanQ]
  | cons c cs2 ih =>
    intro h rest
    have hc : ¬ c = '"' := by intro he; exact h (he ▸ List.mem_cons_self c cs2)
    have h2 : '"' ∉ cs2 := fun hm => h (List.mem_cons_of_mem c hm)
    simp [scanQ, hc, ih h2 rest]
    rfl

theorem parseStrLit_append (k : String) (h : '"' ∉ k.data) (rest : List Char) :
    parseStrLit (qChars k ++ rest) = .ok (k, rest) := by
  have heq : qChars k ++ rest = '"' :: (k.data ++ '"' :: rest) := by
    simp [qChars]
  rw [heq]
  simp [parseStrLit, scanQ_append k.data h rest]
  rfl

/-- Scalar values whose serialization parses back: strings without a
quote character. -/
def safeVal : JValue → Prop
  | .jstr s => '"' ∉ s.data
  | _ => True

theorem parseScalar_append (v : JValue) (h : safeVal v) (rest : List Char) :
    parseScalar (scalarChars v ++ rest) = .ok (v, rest) := by
  rcases v with s | b | _
  · have heq : scalarChars (.jstr s) ++ rest = '"' :: (s.data ++ '"' :: rest) := by
      simp [scalarChars, qChars]
    rw [heq]
    simp [parseScalar, scanQ_append s.data h rest]
    rfl
  · rcases b <;> simp [scalarChars, parseScalar]
  · simp [scalarChars, parseScalar]

theorem entriesChars_length_ge (pv : α → List Char) (pad : List Char) :
    ∀ m : List (String × α), m.length ≤ (entriesChars pv pad m).length := by
  intro m
  induction m with
  | nil => simp [entriesChars]
  | cons kv rest ih =>
    rcases rest with _ | ⟨kv2, rest2⟩
    · rcases kv with ⟨k, v⟩
      have heq : entriesChars pv pad [(k, v)] =
          pad ++ qChars k ++ ':' :: ' ' :: pv v := rfl
      rw [heq]
      simp [qChars]
      omega
    · rcases kv with ⟨k, v⟩
      have heq : entriesChars pv pad ((k, v) :: kv2 :: rest2) =
          pad ++ qChars k ++ ':' :: ' ' :: pv v ++ ',' :: '\n' ::
            entriesChars pv pad (kv2 :: rest2) := rfl
      rw [heq]
      simp only [List.length_cons, List.length_append, qChars] at ih ⊢
      omega

theorem parseEntriesG_rt (vp : List Char → Except Unit (α × List Char))
    (pv : α → List Char) (P : α → Prop)
    (hvp : ∀ v, P v → ∀ rest, vp (pv v ++ rest) = .ok (v, rest)) (pad : List Char) :
    ∀ (m : List (String × α)) (fuel : Nat) (t2 : List Char),
      m ≠ [] → (∀ kv ∈ m, '"' ∉ (kv.1 : String).data ∧ P kv.2) →
      m.length ≤ fuel →
      parseEntriesG vp pad fuel (entriesChars pv pad m ++ '\n' :: t2) =
        .ok (m, '\n' :: t2) := by
  intro m
  induction m with
  | nil => intro fuel t2 hne; exact absurd rfl hne
  | cons kv rest ih =>
    intro fuel t2 _ hsafe hfuel
    rcases fuel with _ | f
    · simp at hfuel
    rcases kv with ⟨k, v⟩
    have hk := (hsafe (k, v) (List.mem_cons_self _ _)).1
    have hv := (hsafe (k, v) (List.mem_cons_self _ _)).2
    rcases rest with _ | ⟨kv2, rest2⟩
    · have harr : entriesChars pv pad [(k, v)] ++ '\n' :: t2 =
          pad ++ (qChars k ++ (':' :: ' ' :: (pv v ++ '\n' :: t2))) := by
        have : entriesChars pv pad [(k, v)] =
            pad ++ qChars k ++ ':' :: ' ' :: pv v := rfl
        rw [this]; simp
      rw [harr]
      simp only [parseEntriesG, exceptBindOk, expectPre_append,
        parseStrLit_append k hk, expectPre_colon_space, hvp v hv]
      rfl
    · have harr : entriesChars pv pad ((k, v) :: kv2 :: rest2) ++ '\n' :: t2 =
          pad ++ (qChars k ++ (':' :: ' ' :: (pv v ++ (',' :: '\n' ::
            (entriesChars pv pad (kv2 :: rest2) ++ '\n' :: t2))))) := by
        have : entriesChars pv pad ((k, v) :: kv2 :: rest2) =
            pad ++ qChars k ++ ':' :: ' ' :: pv v ++ ',' :: '\n' ::
              entriesChars pv pad (kv2 :: rest2) := rfl
        rw [this]; simp
      rw [harr]
      have hrec := ih f t2 (by simp)
        (fun p hp => hsafe p (List.mem_cons_of_mem _ hp))
        (by simp at hfuel ⊢; omega)
      simp only [parseEntriesG, exceptBindOk, expectPre_append,
        parseStrLit_append k hk, expectPre_colon_space, hvp v hv, hrec]

/-- Fields whose keys and string values are quote-free, so that the
unescaped serialization parses back. -/
def safeFields (m : JFields) : Prop :=
  ∀ kv ∈ m, '"' ∉ (kv.1 : String).data ∧ safeVal kv.2

instance (v : JValue) : Decidable (safeVal v) := by
  rcases v with s | b | _ <;> unfold safeVal <;> exact inferInstance

instance (m : JFields) : Decidable (safeFields m) := by
  unfold safeFields
  exact List.decidableBAll _ m

/-- Documents whose paths and fields are quote-free. -/
def safeDoc (d : JDoc) : Prop :=
  ∀ pf ∈ d, '"' ∉ (pf.1 : String).data ∧ safeFields pf.2

instance (d : JDoc) : Decidable (safeDoc d) := by
  unfold safeDoc
  exact List.decidableBAll _ d

theorem parseFields_dump (m : JFields) (h : safeFields m) :
    parseFieldsChars (dumpFieldsChars m) = .ok m := by
  rcases m with _ | ⟨kv, rest⟩
  · rfl
  · have hd : dumpFieldsChars (kv :: rest) =
        '{' :: '\n' :: (entriesChars scalarChars "    ".data (kv :: rest) ++
          '\n' :: ['}']) := by
      simp [dumpFieldsChars]
    rw [hd]
    have hrt := parseEntriesG_rt parseScalar scalarChars safeVal
      (fun v hv rest2 => parseScalar_append v hv rest2) "    ".data
      (kv :: rest) (entriesChars scalarChars "    ".data (kv :: rest) ++ '\n' :: ['}']).length
      ['}'] (by simp) h
      (by
        have hlen := entriesChars_length_ge scalarChars "    ".data (kv :: rest)
        rw [List.length_append]
        omega)
    simp only [parseFieldsChars, hrt, exceptBindOk]

theorem parseInner_dump (m : JFields) (h : safeFields m) (rest : List Char) :
    parseInner (dumpInnerChars m ++ rest) = .ok (m, rest) := by
  rcases m with _ | ⟨kv, tail⟩
  · rfl
  · have hd : dumpInnerChars (kv :: tail) ++ rest =
        '{' :: '\n' :: (entriesChars scalarChars "        ".data (kv :: tail) ++
          '\n' :: (' ' :: ' ' :: ' ' :: ' ' :: '}' :: rest)) := by
      simp [dumpInnerChars]
    rw [hd]
    have hrt := parseEntriesG_rt parseScalar scalarChars safeVal
      (fun v hv r2 => parseScalar_append v hv r2) "        ".data
      (kv :: tail)
      (entriesChars scalarChars "        ".data (kv :: tail) ++
        '\n' :: (' ' :: ' ' :: ' ' :: ' ' :: '}' :: rest)).length
      (' ' :: ' ' :: ' ' :: ' ' :: '}' :: rest) (by simp) h
      (by
        have hlen := entriesChars_length_ge scalarChars "        ".data (kv :: tail)
        rw [List.length_append]
        omega)
    simp only [parseInner, hrt, exceptBindOk]

theorem parseDoc_dump (d : JDoc) (h : safeDoc d) :
    parseDocChars (dumpDocChars d) = .ok d := by
  rcases d with _ | ⟨pf, rest⟩
  · rfl
  · have hd : dumpDocChars (pf :: rest) =
        '{' :: '\n' :: (entriesChars dumpInnerChars "    ".data (pf :: rest) ++
          '\n' :: ['}']) := by
      simp [dumpDocChars]
    rw [hd]
    have hrt := parseEntriesG_rt parseInner dumpInnerChars safeFields
      (fun f hf r2 => parseInner_dump f hf r2) "    ".data
      (pf :: rest)
      (entriesChars dumpInnerChars "    ".data (pf :: rest) ++ '\n' :: ['}']).length
      ['}'] (by simp) h
      (by
        have hlen := entriesChars_length_ge dumpInnerChars "    ".data (pf :: rest)
        rw [List.length_append]
        omega)
    simp only [parseDocChars, hrt, exceptBindOk]

/-- The ascending stable key order used by `sorted(data.items(),
key=lambda t: t[0])`. -/
def keyLe (a b : String × α) : Prop := charsLt b.1.data a.1.data = false

instance (a b : String × α) : Decidable (keyLe a b) := by
  unfold keyLe
  exact inferInstance

instance : IsTotal (String × α) (@keyLe α) := by
  constructor
  intro a b
  unfold keyLe
  rcases h : charsLt b.1.data a.1.data
  · left; rfl
  · right; exact charsLt_asymm _ _ h

instance : IsTrans (String × α) (@keyLe α) := by
  constructor
  intro a b c hab hbc
  unfold keyLe at hab hbc ⊢
  by_contra hca
  simp only [Bool.not_eq_false] at hca
  rcases charsLt_cotrans _ _ b.1.data hca with h | h <;> simp_all

/-- `OrderedDict(sorted(data.items(), key=lambda t: t[0]))`. -/
def sortByKey (m : List (String × α)) : List (String × α) :=
  List.insertionSort keyLe m

/-- `LibraryUtils.save_json(path, data)`: sort the top-level keys,
serialize with `indent=4`, and store through `write` (which makes the
content relative to the data file's directory). -/
def LibraryUtils_save_json_bytes (m : JFields) (path : String) : String :=
  get_relative_path ⟨dumpFieldsChars (sortByKey m)⟩ path

theorem replaceGo_no_occur (pat rep : List Char) :
    ∀ (fuel : Nat) (s : List Char), subChars pat s = false →
    replaceGo pat rep fuel s = s := by
  intro fuel
  induction fuel with
  | zero => intro s _; rfl
  | succ f ih =>
    intro s h
    cases s with
    | nil => rfl
    | cons c rest =>
      simp only [subChars, Bool.or_eq_false_iff] at h
      simp only [replaceGo, h.1, if_false, Bool.false_eq_true]
      rw [ih rest h.2]

theorem strReplace_no_occur (s pat rep : String) (h : pySubstr pat s = false) :
    strReplace s pat rep = s := by
  unfold strReplace
  split
  · rfl
  · rw [replaceGo_no_occur pat.data rep.data s.data.length s.data h]

theorem subChars_mono_pat (p q : List Char) :
    ∀ s : List Char, subChars (p ++ q) s = true → subChars p s = true := by
  intro s
  induction s with
  | nil =>
    intro h
    simp only [subChars, List.isEmpty_iff] at h ⊢
    rcases List.append_eq_nil.mp h with ⟨h1, _⟩
    exact h1
  | cons c rest ih =>
    intro h
    simp only [subChars, Bool.or_eq_true] at h ⊢
    rcases h with h | h
    · left
      have hpre : p ++ q <+: c :: rest := List.isPrefixOf_iff_prefix.mp h
      exact List.isPrefixOf_iff_prefix.mpr ((List.prefix_append p q).trans hpre)
    · right; exact ih h

theorem dumpFieldsChars_ne_nil (m : JFields) : dumpFieldsChars m ≠ [] := by
  cases m <;> simp [dumpFieldsChars]

theorem subChars_dots3 (s : List Char) (h : subChars "../".data s = false) :
    subChars "../../../".data s = false := by
  rcases hsub : subChars "../../../".data s with _ | _
  · rfl
  · exfalso
    have h2 := subChars_mono_pat "../".data "../../".data s
    rw [(rfl : "../".data ++ "../../".data = "../../../".data)] at h2
    rw [h2 hsub] at h
    cases h

theorem subChars_dots2 (s : List Char) (h : subChars "../".data s = false) :
    subChars "../../".data s = false := by
  rcases hsub : subChars "../../".data s with _ | _
  · rfl
  · exfalso
    have h2 := subChars_mono_pat "../".data "../".data s
    rw [(rfl : "../".data ++ "../".data = "../../".data)] at h2
    rw [h2 hsub] at h
    cases h

/-- `absolute_path` is the identity on content without `../`. -/
theorem absolute_path_no_dots (data start : String)
    (h : pySubstr "../" data = false) : absolute_path data start = data := by
  show strReplace (strReplace (strReplace data "../../../"
      (ensureSlash (dirnameStr (dirnameStr (dirnameStr start)))))
    "../../" (ensureSlash (dirnameStr (dirnameStr start)))) "../"
    (ensureSlash (dirnameStr start)) = data
  rw [strReplace_no_occur data "../../../" _ (subChars_dots3 data.data h),
    strReplace_no_occur data "../../" _ (subChars_dots2 data.data h),
    strReplace_no_occur data "../" _ h]

/-- **C8.** Writing a fields map with `save_json` and reading it back with
`read_json` yields exactly the written map with its keys sorted — the
same key/value pairs as the original (for quote-free strings, and content
in which neither `../` nor the data directory prefix occurs, so the
portable-path rewriting is the identity). -/
theorem C8_json_roundtrip (m : JFields) (path : String)
    (hsafe : safeFields (sortByKey m))
    (hnodots : pySubstr "../" ⟨dumpFieldsChars (sortByKey m)⟩ = false)
    (hnodir : pySubstr (ensureSlash (dirnameStr path)) ⟨dumpFieldsChars (sortByKey m)⟩
      = false) :
    LibraryUtils_read_json (some (LibraryUtils_save_json_bytes m path)) path =
      .ok (sortByKey m)
  ∧ (sortByKey m).Perm m
  ∧ (sortByKey m).Pairwise keyLe := by
  have hrel : LibraryUtils_save_json_bytes m path = ⟨dumpFieldsChars (sortByKey m)⟩ :=
    strReplace_no_occur _ _ _ hnodir
  have habs : LibraryUtils_read (some (LibraryUtils_save_json_bytes m path)) path =
      ⟨dumpFieldsChars (sortByKey m)⟩ := by
    rw [hrel]
    unfold LibraryUtils_read
    simp only [Option.getD]
    exact absolute_path_no_dots _ _ hnodots
  refine ⟨?_, List.perm_insertionSort _ m, List.sorted_insertionSort keyLe m⟩
  unfold LibraryUtils_read_json
  rw [habs]
  have hne : (⟨dumpFieldsChars (sortByKey m)⟩ : String) ≠ "" := by
    intro he
    exact dumpFieldsChars_ne_nil (sortByKey m) (congrArg String.data he)
  show parseFieldsChars ((if (⟨dumpFieldsChars (sortByKey m)⟩ : String) = "" then "{}"
    else ⟨dumpFieldsChars (sortByKey m)⟩).data) = Except.ok (sortByKey m)
  rw [if_neg hne]
  exact parseFields_dump (sortByKey m) hsafe

/-- Witness for C8 on a concrete fields map. -/
theorem C8_json_roundtrip_witness :
    LibraryUtils_read_json
        (some (LibraryUtils_save_json_bytes
          [("type", .jstr "mesh"), ("name", .jstr "Chair")] "/tmp/store/data.json"))
        "/tmp/store/data.json" =
      .ok (sortByKey [("type", .jstr "mesh"), ("name", .jstr "Chair")]) :=
  (C8_json_roundtrip [("type", .jstr "mesh"), ("name", .jstr "Chair")]
    "/tmp/store/data.json" (by decide) (by rfl) (by rfl)).1

/-! ## C9: idempotent sync (`Library.sync`, `tpQtLib/core/library.py`)

`sync` reads the document, drops entries whose path no longer exists on
disk, merges the fields of every crawled item into the document
(`item_data = data.get(path, {}); item_data.update(item.item_data());
data[path] = item_data`), runs the no-op `post_sync`, and saves.  The
crawl is a pure function of the unchanged disk, so both runs see the same
`onDisk` predicate and item list. -/

/-- Python `d[k] = v` on an insertion-ordered dict: replace in place, or
append a new key. -/
def setAssoc : List (String × α) → String → α → List (String × α)
  | [], k, v => [(k, v)]
  | (k2, v2) :: rest, k, v =>
    if k2 = k then (k, v) :: rest else (k2, v2) :: setAssoc rest k v

/-- Python `base.update(other)`. -/
def dictUpdate (base : List (String × α)) : List (String × α) → List (String × α)
  | [] => base
  | (k, v) :: rest => dictUpdate (setAssoc base k v) rest

/-- The stale-entry pruning step of `sync`: drop paths no longer on disk. -/
def pruneDoc (onDisk : String → Bool) (d : JDoc) : JDoc :=
  d.filter (fun kv => onDisk kv.1)

/-- The merge loop of `sync` over the crawled items. -/
def syncMerge (items : List (String × JFields)) (d : JDoc) : JDoc :=
  items.foldl
    (fun acc it =>
      setAssoc acc it.1 (dictUpdate ((acc.lookup it.1).getD []) it.2)) d

/-- One whole `sync` pass on the in-memory document (`post_sync` is a
no-op). -/
def Library_sync_once (onDisk : String → Bool) (items : List (String × JFields))
    (readDoc : JDoc) : JDoc :=
  syncMerge items (pruneDoc onDisk readDoc)

/-- The bytes `sync` persists: `save_json` of the document (sorted keys,
`indent=4`, made relative by `write`). -/
def syncPersistBytes (d : JDoc) (path : String) : String :=
  get_relative_path ⟨dumpDocChars (sortByKey d)⟩ path

/-- `read_json` for the two-level library document. -/
def LibraryUtils_read_json_doc (fileContent : Option String) (path : String) :
    Except Unit JDoc :=
  let data := LibraryUtils_read fileContent path
  let data := if data = "" then "{}" else data
  parseDocChars data.data

theorem setAssoc_of_lookup {α : Type} :
    ∀ (m : List (String × α)) (k : String) (v : α),
    m.lookup k = some v → setAssoc m k v = m := by
  intro m
  induction m with
  | nil => intro k v h; simp [List.lookup] at h
  | cons kv rest ih =>
    intro k v h
    rcases kv with ⟨k2, v2⟩
    by_cases hk : k2 = k
    · subst hk
      simp [List.lookup] at h
      simp [setAssoc, h]
    · have hbeq : (k == k2) = false := by
        simp only [beq_eq_false_iff_ne, ne_eq]
        exact fun he => hk he.symm
      simp only [List.lookup, hbeq] at h
      simp [setAssoc, hk, ih k v h]

theorem lookup_setAssoc_eq {α : Type} :
    ∀ (m : List (String × α)) (k : String) (v : α),
    (setAssoc m k v).lookup k = some v := by
  intro m
  induction m with
  | nil => intro k v; simp [setAssoc, List.lookup]
  | cons kv rest ih =>
    intro k v
    rcases kv with ⟨k2, v2⟩
    by_cases hk : k2 = k
    · simp [setAssoc, hk, List.lookup]
    · have hbeq : (k == k2) = false := by
        simp only [beq_eq_false_iff_ne, ne_eq]
        exact fun he => hk he.symm
      simp [setAssoc, hk, List.lookup, hbeq, ih k v]

theorem lookup_setAssoc_ne {α : Type} :
    ∀ (m : List (String × α)) (k k2 : String) (v : α), k2 ≠ k →
    (setAssoc m k v).lookup k2 = m.lookup k2 := by
  intro m
  induction m with
  | nil =>
    intro k k2 v h
    have hbeq : (k2 == k) = false := by simp [h]
    simp [setAssoc, List.lookup, hbeq]
  | cons kv rest ih =>
    intro k k2 v h
    rcases kv with ⟨k3, v3⟩
    by_cases hk : k3 = k
    · subst hk
      have hbeq : (k2 == k3) = false := by simp [h]
      simp [setAssoc, List.lookup, hbeq]
    · simp only [setAssoc, if_neg hk]
      by_cases hk23 : k2 = k3
      · subst hk23
        simp [List.lookup]
      · have hbeq : (k2 == k3) = false := by simp [hk23]
        simp [List.lookup, hbeq, ih k k2 v h]

theorem dictUpdate_of_lookup {α : Type} :
    ∀ (f base : List (String × α)),
    (∀ kv ∈ f, base.lookup kv.1 = some kv.2) → dictUpdate base f = base := by
  intro f
  induction f with
  | nil => intro base _; rfl
  | cons kv rest ih =>
    intro base h
    rcases kv with ⟨k, v⟩
    have h1 : base.lookup k = some v := h (k, v) (List.mem_cons_self _ _)
    simp only [dictUpdate, setAssoc_of_lookup base k v h1]
    exact ih base (fun p hp => h p (List.mem_cons_of_mem _ hp))

theorem dictUpdate_lookup_not_mem {α : Type} :
    ∀ (f base : List (String × α)) (k : String),
    k ∉ f.map Prod.fst → (dictUpdate base f).lookup k = base.lookup k := by
  intro f
  induction f with
  | nil => intro base k _; rfl
  | cons kv rest ih =>
    intro base k h
    rcases kv with ⟨k2, v2⟩
    simp only [List.map_cons, List.mem_cons] at h
    push_neg at h
    simp only [dictUpdate]
    rw [ih _ k h.2, lookup_setAssoc_ne base k2 k v2 h.1]

theorem dictUpdate_lookup_mem {α : Type} :
    ∀ (f base : List (String × α)) (k : String) (v : α),
    (f.map Prod.fst).Nodup → (k, v) ∈ f →
    (dictUpdate base f).lookup k = some v := by
  intro f
  induction f with
  | nil => intro base k v _ h; simp at h
  | cons kv rest ih =>
    intro base k v hnd hmem
    rcases kv with ⟨k2, v2⟩
    simp only [List.map_cons, List.nodup_cons] at hnd
    rcases List.mem_cons.mp hmem with heq | hmem2
    · cases heq
      simp only [dictUpdate]
      rw [dictUpdate_lookup_not_mem rest _ k hnd.1, lookup_setAssoc_eq]
    · simp only [dictUpdate]
      exact ih _ k v hnd.2 hmem2

theorem dictUpdate_idem {α : Type} (f base : List (String × α))
    (hnd : (f.map Prod.fst).Nodup) :
    dictUpdate (dictUpdate base f) f = dictUpdate base f :=
  dictUpdate_of_lookup f (dictUpdate base f)
    (fun kv hkv => dictUpdate_lookup_mem f base kv.1 kv.2 hnd hkv)

theorem syncMerge_lookup_not_mem :
    ∀ (items : List (String × JFields)) (d : JDoc) (p : String),
    p ∉ items.map Prod.fst → (syncMerge items d).lookup p = d.lookup p := by
  intro items
  induction items with
  | nil => intro d p _; rfl
  | cons it rest ih =>
    intro d p h
    simp only [List.map_cons, List.mem_cons] at h
    push_neg at h
    simp only [syncMerge, List.foldl_cons]
    rw [show (rest.foldl
        (fun acc it =>
          setAssoc acc it.1 (dictUpdate ((acc.lookup it.1).getD []) it.2))
        (setAssoc d it.1 (dictUpdate ((d.lookup it.1).getD []) it.2))) =
      syncMerge rest (setAssoc d it.1 (dictUpdate ((d.lookup it.1).getD []) it.2))
      from rfl]
    rw [ih _ p h.2, lookup_setAssoc_ne _ _ _ _ h.1]

theorem syncMerge_lookup_mem :
    ∀ (items : List (String × JFields)) (d : JDoc) (p : String) (f : JFields),
    (items.map Prod.fst).Nodup → (p, f) ∈ items →
    ∃ b, (syncMerge items d).lookup p = some (dictUpdate b f) := by
  intro items
  induction items with
  | nil => intro d p f _ h; simp at h
  | cons it rest ih =>
    intro d p f hnd hmem
    simp only [List.map_cons, List.nodup_cons] at hnd
    simp only [syncMerge, List.foldl_cons]
    rw [show (rest.foldl
        (fun acc it =>
          setAssoc acc it.1 (dictUpdate ((acc.lookup it.1).getD []) it.2))
        (setAssoc d it.1 (dictUpdate ((d.lookup it.1).getD []) it.2))) =
      syncMerge rest (setAssoc d it.1 (dictUpdate ((d.lookup it.1).getD []) it.2))
      from rfl]
    rcases List.mem_cons.mp hmem with heq | hmem2
    · cases heq
      refine ⟨(d.lookup p).getD [], ?_⟩
      rw [syncMerge_lookup_not_mem rest _ p hnd.1, lookup_setAssoc_eq]
    · exact ih _ p f hnd.2 hmem2

theorem syncMerge_of_stable :
    ∀ (items : List (String × JFields)) (d : JDoc),
    (∀ pf ∈ items, ∃ g, d.lookup pf.1 = some g ∧ dictUpdate g pf.2 = g) →
    syncMerge items d = d := by
  intro items
  induction items with
  | nil => intro d _; rfl
  | cons it rest ih =>
    intro d h
    rcases h it (List.mem_cons_self _ _) with ⟨g, hg, hupd⟩
    simp only [syncMerge, List.foldl_cons]
    rw [hg]
    simp only [Option.getD]
    rw [hupd, setAssoc_of_lookup d it.1 g hg]
    exact ih d (fun p hp => h p (List.mem_cons_of_mem _ hp))

theorem setAssoc_map_fst {α : Type} :
    ∀ (m : List (String × α)) (k : String) (v : α) (x : String),
    x ∈ (setAssoc m k v).map Prod.fst → x ∈ m.map Prod.fst ∨ x = k := by
  intro m
  induction m with
  | nil => intro k v x h; simp [setAssoc] at h; right; exact h
  | cons kv rest ih =>
    intro k v x h
    rcases kv with ⟨k2, v2⟩
    by_cases hk : k2 = k
    · subst hk
      have hset : setAssoc ((k2, v2) :: rest) k2 v = (k2, v) :: rest := by
        simp [setAssoc]
      rw [hset] at h
      simp only [List.map_cons, List.mem_cons] at h
      rcases h with h | h
      · right; exact h
      · left; simp [h]
    · simp only [setAssoc, if_neg hk, List.map_cons, List.mem_cons] at h
      rcases h with rfl | h
      · left; simp
      · rcases ih k v x h with h2 | h2
        · left; simp [h2]
        · right; exact h2

theorem setAssoc_keys_nodup {α : Type} :
    ∀ (m : List (String × α)) (k : String) (v : α),
    (m.map Prod.fst).Nodup → ((setAssoc m k v).map Prod.fst).Nodup := by
  intro m
  induction m with
  | nil => intro k v _; simp [setAssoc]
  | cons kv rest ih =>
    intro k v hnd
    rcases kv with ⟨k2, v2⟩
    simp only [List.map_cons, List.nodup_cons] at hnd
    by_cases hk : k2 = k
    · subst hk
      have hset : setAssoc ((k2, v2) :: rest) k2 v = (k2, v) :: rest := by
        simp [setAssoc]
      rw [hset]
      simp only [List.map_cons, List.nodup_cons]
      exact hnd
    · simp only [setAssoc, if_neg hk, List.map_cons, List.nodup_cons]
      refine ⟨?_, ih k v hnd.2⟩
      intro hmem
      rcases setAssoc_map_fst rest k v k2 hmem with h2 | h2
      · exact hnd.1 h2
      · exact hk h2

theorem syncMerge_map_fst :
    ∀ (items : List (String × JFields)) (d : JDoc) (x : String),
    x ∈ (syncMerge items d).map Prod.fst →
    x ∈ d.map Prod.fst ∨ x ∈ items.map Prod.fst := by
  intro items
  induction items with
  | nil => intro d x h; left; exact h
  | cons it rest ih =>
    intro d x h
    simp only [syncMerge, List.foldl_cons] at h
    rcases ih _ x h with h2 | h2
    · rcases setAssoc_map_fst d it.1 _ x h2 with h3 | h3
      · left; exact h3
      · right; simp [h3]
    · right; simp [h2]

theorem syncMerge_keys_nodup :
    ∀ (items : List (String × JFields)) (d : JDoc),
    (d.map Prod.fst).Nodup → ((syncMerge items d).map Prod.fst).Nodup := by
  intro items
  induction items with
  | nil => intro d h; exact h
  | cons it rest ih =>
    intro d h
    simp only [syncMerge, List.foldl_cons]
    exact ih _ (setAssoc_keys_nodup d it.1 _ h)

theorem lookup_eq_none_iff {α : Type} :
    ∀ (m : List (String × α)) (k : String),
    m.lookup k = none ↔ k ∉ m.map Prod.fst := by
  intro m
  induction m with
  | nil => intro k; simp [List.lookup]
  | cons kv rest ih =>
    intro k
    rcases kv with ⟨k2, v2⟩
    by_cases hk : k = k2
    · subst hk
      simp [List.lookup]
    · have hbeq : (k == k2) = false := by simp [hk]
      simp [List.lookup, hbeq, ih k, hk]

theorem lookup_eq_some_iff_mem {α : Type} :
    ∀ (m : List (String × α)), (m.map Prod.fst).Nodup →
    ∀ (k : String) (v : α), (m.lookup k = some v ↔ (k, v) ∈ m) := by
  intro m
  induction m with
  | nil => intro _ k v; simp [List.lookup]
  | cons kv rest ih =>
    intro hnd k v
    rcases kv with ⟨k2, v2⟩
    simp only [List.map_cons, List.nodup_cons] at hnd
    by_cases hk : k = k2
    · subst hk
      simp only [List.lookup, beq_self_eq_true, List.mem_cons]
      constructor
      · intro h
        left
        cases h
        rfl
      · intro h
        rcases h with h | h
        · cases h; rfl
        · exfalso
          exact hnd.1 (List.mem_map.mpr ⟨(k, v), h, rfl⟩)
    · have hbeq : (k == k2) = false := by simp [hk]
      simp only [List.lookup, hbeq, List.mem_cons]
      rw [ih hnd.2 k v]
      constructor
      · intro h; right; exact h
      · intro h
        rcases h with h | h
        · cases h; exact absurd rfl hk
        · exact h

theorem lookup_eq_of_perm {α : Type} (m1 m2 : List (String × α))
    (hperm : m1.Perm m2) (hnd : (m1.map Prod.fst).Nodup) (k : String) :
    m1.lookup k = m2.lookup k := by
  have hnd2 : (m2.map Prod.fst).Nodup := (hperm.map Prod.fst).nodup_iff.mp hnd
  rcases h1 : m1.lookup k with _ | v
  · rcases h2 : m2.lookup k with _ | v2
    · rfl
    · exfalso
      have hmem := (lookup_eq_some_iff_mem m2 hnd2 k v2).mp h2
      have : k ∈ m1.map Prod.fst :=
        List.mem_map.mpr ⟨(k, v2), hperm.mem_iff.mpr hmem, rfl⟩
      exact (lookup_eq_none_iff m1 k).mp h1 this
  · have hmem := (lookup_eq_some_iff_mem m1 hnd k v).mp h1
    exact ((lookup_eq_some_iff_mem m2 hnd2 k v).mpr (hperm.mem_iff.mp hmem)).symm

theorem dumpDocChars_ne_nil (d : JDoc) : dumpDocChars d ≠ [] := by
  cases d <;> simp [dumpDocChars]

/-- **C9.** With unchanged disk contents (same `onDisk` predicate and same
crawl result), the document `sync` reads back from its own persisted
bytes is exactly what it saved, and a second `sync` persists
byte-identical content (for wellformed dict inputs — duplicate-free keys
— and content on which the portable-path rewriting is the identity). -/
theorem C9_sync_idempotent (onDisk : String → Bool) (items : List (String × JFields))
    (d0 : JDoc) (path : String)
    (hitems : (items.map Prod.fst).Nodup)
    (hfnd : ∀ pf ∈ items, ((pf.2 : JFields).map Prod.fst).Nodup)
    (hd0 : (d0.map Prod.fst).Nodup)
    (hdisk : ∀ pf ∈ items, onDisk (pf.1 : String) = true)
    (hsafe : safeDoc (sortByKey (Library_sync_once onDisk items d0)))
    (hnodots : pySubstr "../"
      ⟨dumpDocChars (sortByKey (Library_sync_once onDisk items d0))⟩ = false)
    (hnodir : pySubstr (ensureSlash (dirnameStr path))
      ⟨dumpDocChars (sortByKey (Library_sync_once onDisk items d0))⟩ = false) :
    LibraryUtils_read_json_doc
        (some (syncPersistBytes (Library_sync_once onDisk items d0) path)) path =
      .ok (sortByKey (Library_sync_once onDisk items d0))
  ∧ syncPersistBytes
        (Library_sync_once onDisk items
          (sortByKey (Library_sync_once onDisk items d0))) path =
      syncPersistBytes (Library_sync_once onDisk items d0) path := by
  have hD1nd : ((Library_sync_once onDisk items d0).map Prod.fst).Nodup := by
    apply syncMerge_keys_nodup
    exact ((List.filter_sublist d0).map Prod.fst).nodup hd0
  have sortPerm : (sortByKey (Library_sync_once onDisk items d0)).Perm
      (Library_sync_once onDisk items d0) := List.perm_insertionSort _ _
  have hSnd : ((sortByKey (Library_sync_once onDisk items d0)).map Prod.fst).Nodup :=
    ((sortPerm.map Prod.fst).nodup_iff).mpr hD1nd
  have hD1disk : ∀ x ∈ (Library_sync_once onDisk items d0).map Prod.fst,
      onDisk x = true := by
    intro x hx
    rcases syncMerge_map_fst items _ x hx with h | h
    · rcases List.mem_map.mp h with ⟨kv, hkv, rfl⟩
      exact (List.mem_filter.mp hkv).2
    · rcases List.mem_map.mp h with ⟨pf, hpf, rfl⟩
      exact hdisk pf hpf
  constructor
  · -- read-back of the persisted document
    have habs : LibraryUtils_read
        (some (syncPersistBytes (Library_sync_once onDisk items d0) path)) path =
        ⟨dumpDocChars (sortByKey (Library_sync_once onDisk items d0))⟩ := by
      unfold syncPersistBytes get_relative_path
      rw [strReplace_no_occur _ _ _ hnodir]
      unfold LibraryUtils_read
      simp only [Option.getD]
      exact absolute_path_no_dots _ _ hnodots
    unfold LibraryUtils_read_json_doc
    rw [habs]
    have hne : (⟨dumpDocChars (sortByKey (Library_sync_once onDisk items d0))⟩ :
        String) ≠ "" := by
      intro he
      exact dumpDocChars_ne_nil _ (congrArg String.data he)
    show parseDocChars
      ((if (⟨dumpDocChars (sortByKey (Library_sync_once onDisk items d0))⟩ :
        String) = "" then "{}"
        else ⟨dumpDocChars (sortByKey (Library_sync_once onDisk items d0))⟩).data) = _
    rw [if_neg hne]
    exact parseDoc_dump _ hsafe
  · -- second sync fixes the document
    have hprune : pruneDoc onDisk (sortByKey (Library_sync_once onDisk items d0)) =
        sortByKey (Library_sync_once onDisk items d0) := by
      apply List.filter_eq_self.mpr
      intro kv hkv
      exact hD1disk kv.1
        (List.mem_map.mpr ⟨kv, sortPerm.mem_iff.mp hkv, rfl⟩)
    have hstable : syncMerge items (sortByKey (Library_sync_once onDisk items d0)) =
        sortByKey (Library_sync_once onDisk items d0) := by
      apply syncMerge_of_stable
      intro pf hpf
      rcases syncMerge_lookup_mem items (pruneDoc onDisk d0) pf.1 pf.2 hitems hpf with
        ⟨b, hb⟩
      refine ⟨dictUpdate b pf.2, ?_, dictUpdate_idem pf.2 b (hfnd pf hpf)⟩
      rw [lookup_eq_of_perm _ _ sortPerm hSnd pf.1]
      exact hb
    have h0 : Library_sync_once onDisk items
        (sortByKey (Library_sync_once onDisk items d0)) =
        syncMerge items (pruneDoc onDisk
          (sortByKey (Library_sync_once onDisk items d0))) := rfl
    have hfix : Library_sync_once onDisk items
        (sortByKey (Library_sync_once onDisk items d0)) =
        sortByKey (Library_sync_once onDisk items d0) := by
      rw [h0, hprune, hstable]
    have hsortidem : sortByKey (sortByKey (Library_sync_once onDisk items d0)) =
        sortByKey (Library_sync_once onDisk items d0) := by
      unfold sortByKey
      exact List.Sorted.insertionSort_eq (List.sorted_insertionSort keyLe _)
    rw [hfix]
    unfold syncPersistBytes
    rw [hsortidem]

theorem C9_sync_idempotent_witness :
    LibraryUtils_read_json_doc
        (some (syncPersistBytes (Library_sync_once (fun _ => true)
          [("/assets/a.ma", [("name", JValue.jstr "a")])] []) "/tmp/store/data.json"))
        "/tmp/store/data.json" =
      .ok (sortByKey (Library_sync_once (fun _ => true)
        [("/assets/a.ma", [("name", JValue.jstr "a")])] []))
  ∧ syncPersistBytes
        (Library_sync_once (fun _ => true)
          [("/assets/a.ma", [("name", JValue.jstr "a")])]
          (sortByKey (Library_sync_once (fun _ => true)
            [("/assets/a.ma", [("name", JValue.jstr "a")])] []))) "/tmp/store/data.json" =
      syncPersistBytes (Library_sync_once (fun _ => true)
        [("/assets/a.ma", [("name", JValue.jstr "a")])] []) "/tmp/store/data.json" :=
  C9_sync_idempotent (fun _ => true)
    [("/assets/a.ma", [("name", JValue.jstr "a")])] [] "/tmp/store/data.json"
    (by decide) (by decide) (by decide) (by decide) (by decide) (by decide) (by decide)
